import Mathlib

/-!
Verification development for the srx symbol-ranking compressor.

The definitions below are a shallow embedding of the Rust sources:
machine integers (`u32`, `u8`, `usize`) become `Nat` with explicit
truncation `% 2^32` where the Rust code wraps, `i64` intermediates become
`Int`, tables become total functions `Nat → Nat` updated with
`Function.update`, and the byte reader/writer become `List Nat`.
File and line references point into the repository sources.
-/

set_option maxRecDepth 8192

namespace Srx

/-- Truncation to 32 bits, modelling Rust `u32` wrapping casts. -/
def u32 (x : Nat) : Nat := x % 4294967296

theorem u32_lt (x : Nat) : u32 x < 4294967296 := Nat.mod_lt _ (by norm_num)

theorem u32_eq_of_lt {x : Nat} (h : x < 4294967296) : u32 x = x := Nat.mod_eq_of_lt h

/-! ### Bitwise toolkit

Small reusable facts about `Nat` bitwise operations, used to relate the
mask-and-shift style of the Rust code to plain division/mod arithmetic. -/

theorem and_mask_eq_mod (x : Nat) : x &&& 255 = x % 256 := by
  have h := Nat.and_pow_two_sub_one_eq_mod x 8
  norm_num at h
  exact h

theorem and_mask24_eq_mod (x : Nat) : x &&& 16777215 = x % 16777216 := by
  have h := Nat.and_pow_two_sub_one_eq_mod x 24
  norm_num at h
  exact h

theorem and_mask14_eq_mod (x : Nat) : x &&& 16383 = x % 16384 := by
  have h := Nat.and_pow_two_sub_one_eq_mod x 14
  norm_num at h
  exact h

theorem shiftRight_xor_distrib (x y k : Nat) : (x ^^^ y) >>> k = (x >>> k) ^^^ (y >>> k) := by
  apply Nat.eq_of_testBit_eq
  intro i
  simp [Nat.testBit_shiftRight, Nat.testBit_xor]

/-- A masked field test: `x &&& (m <<< k)` extracts, shifted, the same bits as
masking `x >>> k` with `m`. -/
theorem and_shifted_mask (x m k : Nat) : x &&& (m <<< k) = ((x >>> k) &&& m) <<< k := by
  apply Nat.eq_of_testBit_eq
  intro i
  simp only [Nat.testBit_land, Nat.testBit_shiftLeft, Nat.testBit_shiftRight]
  by_cases h : k ≤ i
  · simp [h, ge_iff_le, Nat.add_sub_cancel' h, Bool.and_comm, Bool.and_assoc, Bool.and_left_comm]
  · simp [h, ge_iff_le]

/-- Disjoint `lor` is addition: a shifted value or-ed with a small value. -/
theorem mul_pow_lor_eq_add {y k : Nat} (x : Nat) (hy : y < 2 ^ k) :
    (x * 2 ^ k) ||| y = x * 2 ^ k + y := by
  apply Nat.eq_of_testBit_eq
  intro i
  have hx : x * 2 ^ k = x <<< k := (Nat.shiftLeft_eq x k).symm
  by_cases h : k ≤ i
  · have h1 : Nat.testBit y i = false :=
      Nat.testBit_lt_two_pow (lt_of_lt_of_le hy (Nat.pow_le_pow_right (by norm_num) h))
    have h2 : (x * 2 ^ k + y) >>> k = x + y >>> k := by
      rw [Nat.shiftRight_eq_div_pow, Nat.shiftRight_eq_div_pow, Nat.mul_comm,
        Nat.mul_add_div (Nat.pos_pow_of_pos k (by norm_num))]
    have h3 : y >>> k = 0 := by
      rw [Nat.shiftRight_eq_div_pow]
      exact Nat.div_eq_of_lt hy
    obtain ⟨j, rfl⟩ := Nat.exists_eq_add_of_le h
    have h4 : Nat.testBit (x * 2 ^ k + y) (k + j) = Nat.testBit x j := by
      rw [← Nat.testBit_shiftRight, h2, h3, Nat.add_zero]
    rw [Nat.testBit_lor, h4, hx, Nat.testBit_shiftLeft, h1]
    have h5 : k + j - k = j := by omega
    rw [h5, Bool.or_false]
    simp [ge_iff_le, h]
  · push_neg at h
    have h1 : Nat.testBit (x * 2 ^ k) i = false := by
      rw [hx, Nat.testBit_shiftLeft]
      simp [ge_iff_le, Nat.not_le.mpr h]
    have h2 : Nat.testBit (x * 2 ^ k + y) i = Nat.testBit y i := by
      have : (x * 2 ^ k + y) % 2 ^ k = y % 2 ^ k := by
        rw [Nat.add_comm, Nat.add_mul_mod_self_right]
      have e1 := Nat.testBit_mod_two_pow (x * 2 ^ k + y) k i
      have e2 := Nat.testBit_mod_two_pow y k i
      rw [this, e2] at e1
      simpa [h] using e1.symm
    rw [Nat.testBit_lor, h1, h2, Bool.false_or]

/-- The top-byte-agreement test used by the range-coder renormalization,
`(high ^ low) & 0xFF000000 == 0`, holds exactly when the top bytes of two
32-bit values agree. -/
theorem and_top_mask_eq_zero_iff {a b : Nat} (ha : a < 4294967296) (hb : b < 4294967296) :
    ((a ^^^ b) &&& 4278190080 = 0) ↔ a / 16777216 = b / 16777216 := by
  have hmask : (4278190080 : Nat) = 255 <<< 24 := by decide
  rw [hmask, and_shifted_mask, shiftRight_xor_distrib]
  have ha24 : a >>> 24 < 256 := by
    rw [Nat.shiftRight_eq_div_pow]
    omega
  have hb24 : b >>> 24 < 256 := by
    rw [Nat.shiftRight_eq_div_pow]
    omega
  have hxor : (a >>> 24) ^^^ (b >>> 24) < 256 := by
    have := Nat.xor_lt_two_pow (n := 8) (by simpa using ha24) (by simpa using hb24)
    simpa using this
  constructor
  · intro h
    have h2 : ((a >>> 24) ^^^ (b >>> 24)) &&& 255 = 0 := by
      have hsl : (((a >>> 24) ^^^ (b >>> 24)) &&& 255) <<< 24 = 0 := h
      rw [Nat.shiftLeft_eq] at hsl
      norm_num at hsl
      exact hsl
    rw [and_mask_eq_mod, Nat.mod_eq_of_lt hxor, Nat.xor_eq_zero] at h2
    rw [Nat.shiftRight_eq_div_pow, Nat.shiftRight_eq_div_pow] at h2
    simpa using h2
  · intro h
    have h2 : a >>> 24 = b >>> 24 := by
      rw [Nat.shiftRight_eq_div_pow, Nat.shiftRight_eq_div_pow]
      simpa using h
    rw [h2, Nat.xor_self]
    simp

/-! ### Adaptive bit predictor

From `src/secondary_context/prediction.rs` and the identical copy in
`src/main.rs` (lines 67-136): a predictor slot is a `u32` whose low 8 bits
count updates and whose high 24 bits are the probability of bit 1. -/

/-- The `MULTIPLIER` table entry, `src/secondary_context/prediction.rs`
lines 24-34: `0x1_0000_0000 / (i + 2)` rounded to nearest (the literal
table in `src/main.rs` lines 68-101 holds the same values). -/
def multiplier (i : Nat) : Nat :=
  let d := (1 <<< 33) / (i + 2)
  (d >>> 1) + (d &&& 1)

namespace BitPrediction

/-- Initial predictor slot, probability one half: `BitPrediction::new`. -/
def new : Nat := 2147483648

/-- Current probability: `BitPrediction::get_prediction` in `src/main.rs`
line 112 (named `get` in `src/secondary_context/prediction.rs`). -/
def get (s : Nat) : Nat := s &&& 4294967040

/-- One predictor update, `BitPrediction::update` (`src/main.rs` lines
117-135): returns the prediction before the update together with the new
slot value.  The Rust `i64` intermediates become `Int`; the arithmetic
shift `>> 32` is floor division and `as u32` is `emod 2^32`. -/
def update (s : Nat) (bit : Bool) : Nat × Nat :=
  let count : Nat := s &&& 255
  let oldPrediction : Nat := s &&& 4294967040
  let bitShift : Int := if bit then 4294967296 else 0
  let m : Int := multiplier count
  let newPrediction : Nat :=
    ((((bitShift - (oldPrediction : Int)) * m).fdiv 4294967296) % 4294967296).toNat
  (oldPrediction,
    u32 (s + ((newPrediction &&& 4294967040) + (if count < 255 then 1 else 0))))

theorem get_le (s : Nat) : get s ≤ 4294967040 := Nat.and_le_right

theorem get_lt (s : Nat) : get s < 4294967296 :=
  lt_of_le_of_lt (get_le s) (by norm_num)

/-- The value returned by `update` is the prediction read before writing:
the read-then-write contract of the predictor slot. -/
theorem update_fst (s : Nat) (bit : Bool) : (update s bit).1 = get s := rfl

theorem update_snd_lt (s : Nat) (bit : Bool) : (update s bit).2 < 4294967296 :=
  u32_lt _

end BitPrediction

/-! ### Binary range coder

Raw coder from `src/secondary_context/encoder.rs` and
`src/secondary_context/decoder.rs`; `src/main.rs` lines 142-292 embed the
same arithmetic together with the predictor table.  The output writer is
modelled as the list of emitted bytes, the input reader as the list of
bytes not yet consumed. -/

/-- The renormalization guard `(high ^ low) & 0xFF000000 == 0` of
`src/main.rs` lines 178 and 240 (`src/secondary_context` writes the
equivalent `(high ^ low) < 0x01000000`). -/
def topMatch (low high : Nat) : Bool := (high ^^^ low) &&& 4278190080 == 0

/-- Shared evolution of `(low, high)` in the renormalization loops, with
the list of top bytes shifted out (which the encoder writes).  Each
iteration of the `while` loop shifts one byte; four iterations always
reach the exit condition, so fuel 4 makes the loop total. -/
def renormLH : Nat → Nat → Nat → Nat × Nat × List Nat
  | 0, low, high => (low, high, [])
  | fuel + 1, low, high =>
    if topMatch low high then
      let b := low >>> 24
      let r := renormLH fuel (u32 (low <<< 8)) (u32 (high <<< 8) ||| 255)
      (r.1, r.2.1, b :: r.2.2)
    else (low, high, [])

/-- Range encoder state of `src/secondary_context/encoder.rs`: registers
plus the bytes written so far. -/
structure RawEncoder where
  low : Nat
  high : Nat
  out : List Nat
  deriving Repr, DecidableEq

/-- Initial encoder state: `low = 0`, `high = 0xFFFFFFFF`. -/
def RawEncoder.new : RawEncoder := ⟨0, 4294967295, []⟩

/-- One coded bit, `BitEncoder::bit` of `src/secondary_context/encoder.rs`
lines 39-66 (same arithmetic as `src/main.rs` lines 159-187): split the
range at `middle`, keep the sub-range for `bit`, renormalize. -/
def RawEncoder.bit (e : RawEncoder) (prediction : Nat) (bit : Bool) : RawEncoder :=
  let delta : Nat := ((e.high - e.low) * prediction) >>> 32
  let middle : Nat := u32 (e.low + delta)
  let low' : Nat := if bit then e.low else u32 (middle + 1)
  let high' : Nat := if bit then middle else e.high
  let r := renormLH 4 low' high'
  ⟨r.1, r.2.1, e.out ++ r.2.2⟩

/-- Encoder close, `BitEncoder::close` / `src/main.rs` `flush` lines
207-212: one final byte `low >> 24`. -/
def RawEncoder.close (e : RawEncoder) : List Nat := e.out ++ [e.low >>> 24]

/-- The byte read during decoder renormalization: a short read (end of the
input) is replaced by `0xFF`, `src/secondary_context/decoder.rs` lines
47-50 and `src/main.rs` lines 242-245. -/
def decReadByte : List Nat → Nat × List Nat
  | [] => (255, [])
  | b :: rest => (b, rest)

/-- Range decoder state of `src/secondary_context/decoder.rs`: the value
window, the registers, and the bytes not yet consumed. -/
structure RawDecoder where
  value : Nat
  low : Nat
  high : Nat
  input : List Nat
  deriving Repr, DecidableEq

/-- Initial decoder state: all registers zero; the first renormalization
loads four bytes. -/
def RawDecoder.new (input : List Nat) : RawDecoder := ⟨0, 0, 0, input⟩

/-- Decoder renormalization loop (entry of `BitDecoder::bit`): same
`(low, high)` evolution as the encoder, shifting read bytes into `value`. -/
def RawDecoder.renorm : Nat → RawDecoder → RawDecoder
  | 0, d => d
  | fuel + 1, d =>
    if topMatch d.low d.high then
      let r := decReadByte d.input
      RawDecoder.renorm fuel
        ⟨u32 (d.value <<< 8) ||| r.1, u32 (d.low <<< 8), u32 (d.high <<< 8) ||| 255, r.2⟩
    else d

/-- One decoded bit, `BitDecoder::bit` of `src/secondary_context/decoder.rs`
lines 43-78 (same arithmetic as `src/main.rs` lines 238-272): renormalize,
split at `middle`, compare the value window, keep the matching sub-range. -/
def RawDecoder.bit (d : RawDecoder) (prediction : Nat) : Bool × RawDecoder :=
  let d := RawDecoder.renorm 4 d
  let delta : Nat := ((d.high - d.low) * prediction) >>> 32
  let middle : Nat := u32 (d.low + delta)
  let bit : Bool := d.value ≤ middle
  let low' : Nat := if bit then d.low else u32 (middle + 1)
  let high' : Nat := if bit then middle else d.high
  (bit, ⟨d.value, low', high', d.input⟩)

/-! ### Byte streams and the decoder's 32-bit window

The decoder holds in `value` the last four bytes read; past the end of the
input every byte reads as `0xFF`.  `windowL L` is the 32-bit window formed
by the first four bytes of `L` with that padding. -/

/-- All entries of a byte list are actual bytes. -/
def bytesOk (L : List Nat) : Prop := ∀ b ∈ L, b < 256

/-- Byte `i` of a stream, padded with `0xFF` past the end. -/
def padGet (L : List Nat) (i : Nat) : Nat := L.getD i 255

/-- The 32-bit big-endian window over the first four (padded) bytes. -/
def windowL (L : List Nat) : Nat :=
  padGet L 0 * 16777216 + padGet L 1 * 65536 + padGet L 2 * 256 + padGet L 3

theorem bytesOk_nil : bytesOk [] := by intro b hb; cases hb

theorem bytesOk_cons {x : Nat} {L : List Nat} (hx : x < 256) (hL : bytesOk L) :
    bytesOk (x :: L) := by
  intro b hb
  rcases List.mem_cons.mp hb with h | h
  · exact h ▸ hx
  · exact hL b h

theorem bytesOk_append {L M : List Nat} (hL : bytesOk L) (hM : bytesOk M) :
    bytesOk (L ++ M) := by
  intro b hb
  rcases List.mem_append.mp hb with h | h
  · exact hL b h
  · exact hM b h

theorem bytesOk_cons_elim {x : Nat} {L : List Nat} (h : bytesOk (x :: L)) :
    x < 256 ∧ bytesOk L :=
  ⟨h x (List.mem_cons_self x L), fun b hb => h b (List.mem_cons_of_mem x hb)⟩

theorem padGet_lt {L : List Nat} (hL : bytesOk L) (i : Nat) : padGet L i < 256 := by
  induction L generalizing i with
  | nil => simp [padGet, List.getD]
  | cons x t ih =>
    obtain ⟨hx, ht⟩ := bytesOk_cons_elim hL
    cases i with
    | zero => simpa [padGet] using hx
    | succ j => simpa [padGet] using ih ht j

theorem padGet_cons_succ (x : Nat) (L : List Nat) (i : Nat) :
    padGet (x :: L) (i + 1) = padGet L i := by
  simp [padGet]

theorem windowL_lt {L : List Nat} (hL : bytesOk L) : windowL L < 4294967296 := by
  have h0 := padGet_lt hL 0
  have h1 := padGet_lt hL 1
  have h2 := padGet_lt hL 2
  have h3 := padGet_lt hL 3
  unfold windowL
  omega

/-- Reading one byte from position `k` of a (padded) stream. -/
theorem decReadByte_drop (L : List Nat) (k : Nat) :
    decReadByte (L.drop k) = (padGet L k, L.drop (k + 1)) := by
  induction k generalizing L with
  | zero =>
    cases L with
    | nil => simp [decReadByte, padGet]
    | cons x t => simp [decReadByte, padGet]
  | succ j ih =>
    cases L with
    | nil => simp [decReadByte, padGet]
    | cons x t => simpa [padGet_cons_succ] using ih t

/-- Sliding the window one byte: shifting in the next stream byte moves the
window from `x :: L` to `L`. -/
theorem windowL_slide {x : Nat} {L : List Nat} (hL : bytesOk (x :: L)) :
    u32 (windowL (x :: L) <<< 8) ||| padGet L 3 = windowL L := by
  obtain ⟨hx, hLt⟩ := bytesOk_cons_elim hL
  have p0 := padGet_lt hLt 0
  have p1 := padGet_lt hLt 1
  have p2 := padGet_lt hLt 2
  have p3 := padGet_lt hLt 3
  have hw : windowL (x :: L) =
      x * 16777216 + padGet L 0 * 65536 + padGet L 1 * 256 + padGet L 2 := by
    simp [windowL, padGet_cons_succ]
    rfl
  have hshift : u32 (windowL (x :: L) <<< 8) =
      (padGet L 0 * 65536 + padGet L 1 * 256 + padGet L 2) * 256 := by
    rw [Nat.shiftLeft_eq, hw, u32]
    norm_num
    omega
  rw [hshift]
  have h256 : (256 : Nat) = 2 ^ 8 := by norm_num
  rw [h256, mul_pow_lor_eq_add _ (by omega)]
  unfold windowL
  omega

/-- First-byte decomposition of the window. -/
theorem windowL_cons {x : Nat} {L : List Nat} (hL : bytesOk L) :
    windowL (x :: L) = x * 16777216 + windowL L / 256 := by
  have p0 := padGet_lt hL 0
  have p1 := padGet_lt hL 1
  have p2 := padGet_lt hL 2
  have p3 := padGet_lt hL 3
  have hw : windowL (x :: L) =
      x * 16777216 + padGet L 0 * 65536 + padGet L 1 * 256 + padGet L 2 := by
    simp [windowL, padGet_cons_succ]
    rfl
  rw [hw]
  unfold windowL
  omega

/-! ### Renormalization: the single-step facts and the loop specification -/

theorem topMatch_tops_eq {l h : Nat} (hl : l < 4294967296) (hh : h < 4294967296)
    (hc : topMatch l h = true) : l / 16777216 = h / 16777216 := by
  have := (and_top_mask_eq_zero_iff hh hl).mp (by simpa [topMatch] using hc)
  omega

theorem topMatch_self (l : Nat) : topMatch l l = true := by
  simp [topMatch, Nat.xor_self]

/-- One iteration of the renormalization loop, made arithmetic: with equal
top bytes the shifts keep the low 24 bits and append `0x00` resp. `0xFF`. -/
theorem renorm_step {l h : Nat} (hle : l ≤ h) (hh : h < 4294967296)
    (hc : topMatch l h = true) :
    u32 (l <<< 8) = l % 16777216 * 256 ∧
    (u32 (h <<< 8) ||| 255) = h % 16777216 * 256 + 255 ∧
    l % 16777216 * 256 ≤ h % 16777216 * 256 + 255 ∧
    h % 16777216 * 256 + 255 < 4294967296 ∧
    l >>> 24 = l / 16777216 ∧ l / 16777216 = h / 16777216 ∧ l >>> 24 < 256 := by
  have htop := topMatch_tops_eq (lt_of_le_of_lt hle hh) hh hc
  refine ⟨?_, ?_, by omega, by omega, Nat.shiftRight_eq_div_pow l 24, htop, ?_⟩
  · rw [Nat.shiftLeft_eq, u32]
    norm_num
    omega
  · have e1 : u32 (h <<< 8) = h % 16777216 * 256 := by
      rw [Nat.shiftLeft_eq, u32]
      norm_num
      omega
    rw [e1]
    have h256 : h % 16777216 * 256 = h % 16777216 * 2 ^ 8 := by norm_num
    rw [h256, mul_pow_lor_eq_add _ (by norm_num)]
  · rw [Nat.shiftRight_eq_div_pow]
    norm_num
    omega

/-- Unfolding of one renormalization-loop iteration ended of the encoder. -/
theorem renormLH_succ (fuel l h : Nat) :
    renormLH (fuel + 1) l h =
    if topMatch l h then
      ((renormLH fuel (u32 (l <<< 8)) (u32 (h <<< 8) ||| 255)).1,
       (renormLH fuel (u32 (l <<< 8)) (u32 (h <<< 8) ||| 255)).2.1,
       l >>> 24 :: (renormLH fuel (u32 (l <<< 8)) (u32 (h <<< 8) ||| 255)).2.2)
    else (l, h, []) := rfl

/-- Unfolding of one renormalization-loop iteration of the decoder. -/
theorem renorm_succ_unfold (fuel v l h : Nat) (inp : List Nat) :
    RawDecoder.renorm (fuel + 1) ⟨v, l, h, inp⟩ =
    if topMatch l h then
      RawDecoder.renorm fuel
        ⟨u32 (v <<< 8) ||| (decReadByte inp).1, u32 (l <<< 8), u32 (h <<< 8) ||| 255,
         (decReadByte inp).2⟩
    else ⟨v, l, h, inp⟩ := rfl

/-- An aligned decoder shifts its window one byte per loop iteration. -/
theorem dec_shift_aligned (fuel : Nat) {x : Nat} {L : List Nat} (hok : bytesOk (x :: L))
    (l h : Nat) (hc : topMatch l h = true) :
    RawDecoder.renorm (fuel + 1) ⟨windowL (x :: L), l, h, (x :: L).drop 4⟩ =
    RawDecoder.renorm fuel ⟨windowL L, u32 (l <<< 8), u32 (h <<< 8) ||| 255, L.drop 4⟩ := by
  rw [renorm_succ_unfold, if_pos hc]
  rw [show (x :: L).drop 4 = L.drop 3 from rfl, decReadByte_drop]
  rw [show ((padGet L 3, L.drop (3 + 1)).1 : Nat) = padGet L 3 from rfl]
  rw [show ((padGet L 3, L.drop (3 + 1)).2 : List Nat) = L.drop 4 from rfl]
  rw [windowL_slide hok]

/-- Specification of the renormalization loop, by induction on the fuel:
range bounds are preserved, emitted bytes are bytes, the decoder's loop
moves `(low, high)` exactly like the encoder's, an aligned decoder (value
window and remaining input matching the emitted byte stream) stays
aligned, and a window bounded by the final range is, prepended with the
emitted bytes, bounded by the initial range. -/
theorem renormLH_spec : ∀ (fuel l h : Nat), l ≤ h → h < 4294967296 →
    (renormLH fuel l h).1 ≤ (renormLH fuel l h).2.1 ∧
    (renormLH fuel l h).2.1 < 4294967296 ∧
    bytesOk (renormLH fuel l h).2.2 ∧
    (∀ v inp, (RawDecoder.renorm fuel ⟨v, l, h, inp⟩).low = (renormLH fuel l h).1 ∧
              (RawDecoder.renorm fuel ⟨v, l, h, inp⟩).high = (renormLH fuel l h).2.1) ∧
    (∀ S, bytesOk S →
       RawDecoder.renorm fuel ⟨windowL ((renormLH fuel l h).2.2 ++ S), l, h,
         ((renormLH fuel l h).2.2 ++ S).drop 4⟩ =
       ⟨windowL S, (renormLH fuel l h).1, (renormLH fuel l h).2.1, S.drop 4⟩) ∧
    (∀ S, bytesOk S → (renormLH fuel l h).1 ≤ windowL S →
       windowL S ≤ (renormLH fuel l h).2.1 →
       l ≤ windowL ((renormLH fuel l h).2.2 ++ S) ∧
       windowL ((renormLH fuel l h).2.2 ++ S) ≤ h) := by
  intro fuel
  induction fuel with
  | zero =>
    intro l h hle hh
    refine ⟨hle, hh, bytesOk_nil, ?_, ?_, ?_⟩
    · intro v inp
      exact ⟨rfl, rfl⟩
    · intro S _
      simp [renormLH, RawDecoder.renorm]
    · intro S _ h1 h2
      simpa [renormLH] using ⟨h1, h2⟩
  | succ fuel ih =>
    intro l h hle hh
    rcases Bool.eq_false_or_eq_true (topMatch l h) with hc | hc
    · -- one shift, then the induction hypothesis
      obtain ⟨e1, e2, hle1, hh1, e3, e4, e5⟩ := renorm_step hle hh hc
      obtain ⟨ih1, ih2, ih3, ih4, ih5, ih6⟩ :=
        ih (l % 16777216 * 256) (h % 16777216 * 256 + 255) hle1 hh1
      have hunf : renormLH (fuel + 1) l h =
          ((renormLH fuel (l % 16777216 * 256) (h % 16777216 * 256 + 255)).1,
           (renormLH fuel (l % 16777216 * 256) (h % 16777216 * 256 + 255)).2.1,
           l >>> 24 ::
             (renormLH fuel (l % 16777216 * 256) (h % 16777216 * 256 + 255)).2.2) := by
        rw [renormLH_succ, if_pos hc, e1, e2]
      rw [hunf]
      refine ⟨ih1, ih2, bytesOk_cons e5 ih3, ?_, ?_, ?_⟩
      · intro v inp
        rw [renorm_succ_unfold, if_pos hc, e1, e2]
        exact ih4 _ _
      · intro S hS
        have hbsOk : bytesOk
            ((renormLH fuel (l % 16777216 * 256) (h % 16777216 * 256 + 255)).2.2 ++ S) :=
          bytesOk_append ih3 hS
        have hcons : bytesOk (l >>> 24 ::
            ((renormLH fuel (l % 16777216 * 256) (h % 16777216 * 256 + 255)).2.2 ++ S)) :=
          bytesOk_cons e5 hbsOk
        rw [List.cons_append, dec_shift_aligned fuel hcons l h hc, e1, e2]
        exact ih5 S hS
      · intro S hS h1 h2
        have hbsOk : bytesOk
            ((renormLH fuel (l % 16777216 * 256) (h % 16777216 * 256 + 255)).2.2 ++ S) :=
          bytesOk_append ih3 hS
        obtain ⟨g1, g2⟩ := ih6 S hS h1 h2
        rw [List.cons_append, windowL_cons hbsOk]
        constructor
        · have := e3
          omega
        · have := e3
          omega
    · -- the loop exits immediately
      have hunf : renormLH (fuel + 1) l h = (l, h, []) := by
        rw [renormLH_succ, if_neg (by simp [hc])]
      rw [hunf]
      refine ⟨hle, hh, bytesOk_nil, ?_, ?_, ?_⟩
      · intro v inp
        rw [renorm_succ_unfold, if_neg (by simp [hc])]
        exact ⟨rfl, rfl⟩
      · intro S _
        rw [show ([] : List Nat) ++ S = S from rfl, renorm_succ_unfold,
          if_neg (by simp [hc])]
      · intro S _ h1 h2
        simpa using ⟨h1, h2⟩

/-- Auxiliary exit argument: each loop iteration multiplies by 256 the
modulus for which `low` is divisible and `high` is congruent to minus
one, so four iterations force `(low, high) = (0, 0xFFFFFFFF)` and the
loop guard fails. -/
theorem renormLH_exit_aux : ∀ (fuel m l h : Nat), m * 2 ^ (8 * fuel) = 4294967296 →
    m ∣ l → h % m = m - 1 → l ≤ h → h < 4294967296 →
    topMatch (renormLH fuel l h).1 (renormLH fuel l h).2.1 = false := by
  intro fuel
  induction fuel with
  | zero =>
    intro m l h hm hdl hdh hle hh
    norm_num at hm
    subst hm
    have hl0 : l = 0 := Nat.eq_zero_of_dvd_of_lt hdl (lt_of_le_of_lt hle hh)
    have hh1 : h = 4294967295 := by
      rw [Nat.mod_eq_of_lt hh] at hdh
      omega
    subst hl0
    subst hh1
    decide
  | succ fuel ih =>
    intro m l h hm hdl hdh hle hh
    have hm0 : 0 < m := by
      rcases Nat.eq_zero_or_pos m with h0 | h0
      · subst h0
        simp at hm
      · exact h0
    rcases Bool.eq_false_or_eq_true (topMatch l h) with hc | hc
    · -- one more shift
      obtain ⟨e1, e2, hle1, hh1, e3, e4, e5⟩ := renorm_step hle hh hc
      have hunf : renormLH (fuel + 1) l h =
          ((renormLH fuel (l % 16777216 * 256) (h % 16777216 * 256 + 255)).1,
           (renormLH fuel (l % 16777216 * 256) (h % 16777216 * 256 + 255)).2.1,
           l >>> 24 ::
             (renormLH fuel (l % 16777216 * 256) (h % 16777216 * 256 + 255)).2.2) := by
        rw [renormLH_succ, if_pos hc, e1, e2]
      rw [hunf]
      have hm' : m * 256 * 2 ^ (8 * fuel) = 4294967296 := by
        rw [show 8 * (fuel + 1) = 8 * fuel + 8 from by ring, pow_add] at hm
        calc m * 256 * 2 ^ (8 * fuel) = m * (2 ^ (8 * fuel) * 2 ^ 8) := by ring
        _ = 4294967296 := hm
      have hdvd24 : m ∣ 16777216 := by
        have h1 : m * 256 ∣ 4294967296 := ⟨2 ^ (8 * fuel), hm'.symm⟩
        obtain ⟨k, hk⟩ := h1
        refine ⟨k, ?_⟩
        have : 16777216 * 256 = m * 256 * k := by omega
        have h2 : 16777216 * 256 = m * k * 256 := by rw [this]; ring
        omega
      have hdl' : m * 256 ∣ l % 16777216 * 256 := by
        have h1 : m ∣ l % 16777216 := by
          have h2 : l % 16777216 = l - 16777216 * (l / 16777216) := by omega
          rw [h2]
          exact Nat.dvd_sub' hdl (Dvd.dvd.mul_right hdvd24 _)
        exact Nat.mul_dvd_mul h1 dvd_rfl
      have hdh' : (h % 16777216 * 256 + 255) % (m * 256) = m * 256 - 1 := by
        have hx : h % 16777216 % m = m - 1 := by
          rw [Nat.mod_mod_of_dvd h hdvd24]
          exact hdh
        have hsplit : h % 16777216 = m * (h % 16777216 / m) + (m - 1) := by
          have := Nat.div_add_mod (h % 16777216) m
          omega
        have hrw : h % 16777216 * 256 + 255 = (m * 256 - 1) + m * 256 * (h % 16777216 / m) := by
          have hmul : h % 16777216 * 256 = m * 256 * (h % 16777216 / m) + (m - 1) * 256 := by
            calc h % 16777216 * 256 = (m * (h % 16777216 / m) + (m - 1)) * 256 := by
                  rw [← hsplit]
            _ = m * 256 * (h % 16777216 / m) + (m - 1) * 256 := by ring
          omega
        rw [hrw, Nat.add_mul_mod_self_left]
        exact Nat.mod_eq_of_lt (by omega)
      exact ih (m * 256) _ _ hm' hdl' hdh' hle1 hh1
    · -- guard already false
      have hunf : renormLH (fuel + 1) l h = (l, h, []) := by
        rw [renormLH_succ, if_neg (by simp [hc])]
      rw [hunf]
      exact hc

/-- The renormalization loop with fuel 4 always exits with differing top
bytes, hence with a strictly widened range `low < high`. -/
theorem renormLH_exit (l h : Nat) (hle : l ≤ h) (hh : h < 4294967296) :
    topMatch (renormLH 4 l h).1 (renormLH 4 l h).2.1 = false ∧
    (renormLH 4 l h).1 < (renormLH 4 l h).2.1 := by
  have hfalse := renormLH_exit_aux 4 1 l h (by norm_num) (one_dvd l) (by omega) hle hh
  obtain ⟨h1, _, _, _, _, _⟩ := renormLH_spec 4 l h hle hh
  refine ⟨hfalse, lt_of_le_of_ne h1 ?_⟩
  intro heq
  rw [heq, topMatch_self] at hfalse
  cases hfalse

theorem topMatch_false_tops_ne {l h : Nat} (hl : l < 4294967296) (hh : h < 4294967296)
    (hc : topMatch l h = false) : l / 16777216 ≠ h / 16777216 := by
  intro heq
  have := (and_top_mask_eq_zero_iff hh hl).mpr heq.symm
  simp [topMatch, this] at hc

/-! ### The range split and its invariants -/

/-- The split point `middle = low + ((high - low) * prediction >> 32)`,
common to `BitEncoder::bit` and `BitDecoder::bit`. -/
def coderMiddle (low high prediction : Nat) : Nat :=
  u32 (low + ((high - low) * prediction) >>> 32)

/-- The sub-range selected for a coded bit: `high ← middle` for bit one,
`low ← middle + 1` for bit zero. -/
def encStepLH (low high prediction : Nat) (bit : Bool) : Nat × Nat :=
  (if bit then low else u32 (coderMiddle low high prediction + 1),
   if bit then coderMiddle low high prediction else high)

theorem RawEncoder.enc_bit_eq (e : RawEncoder) (p : Nat) (b : Bool) :
    e.bit p b =
    ⟨(renormLH 4 (encStepLH e.low e.high p b).1 (encStepLH e.low e.high p b).2).1,
     (renormLH 4 (encStepLH e.low e.high p b).1 (encStepLH e.low e.high p b).2).2.1,
     e.out ++ (renormLH 4 (encStepLH e.low e.high p b).1 (encStepLH e.low e.high p b).2).2.2⟩ :=
  rfl

theorem RawDecoder.bit_eq (d : RawDecoder) (p : Nat) :
    d.bit p =
    (decide ((RawDecoder.renorm 4 d).value ≤
       coderMiddle (RawDecoder.renorm 4 d).low (RawDecoder.renorm 4 d).high p),
     ⟨(RawDecoder.renorm 4 d).value,
      (encStepLH (RawDecoder.renorm 4 d).low (RawDecoder.renorm 4 d).high p
        (decide ((RawDecoder.renorm 4 d).value ≤
          coderMiddle (RawDecoder.renorm 4 d).low (RawDecoder.renorm 4 d).high p))).1,
      (encStepLH (RawDecoder.renorm 4 d).low (RawDecoder.renorm 4 d).high p
        (decide ((RawDecoder.renorm 4 d).value ≤
          coderMiddle (RawDecoder.renorm 4 d).low (RawDecoder.renorm 4 d).high p))).2,
      (RawDecoder.renorm 4 d).input⟩) :=
  rfl

/-- The split invariant: with a non-empty range and a 32-bit prediction,
`low ≤ middle < high` (so both branches keep a range of width at least 1). -/
theorem coderMiddle_bounds {l h p : Nat} (hlh : l < h) (hh : h < 4294967296)
    (hp : p < 4294967296) : l ≤ coderMiddle l h p ∧ coderMiddle l h p < h := by
  have hdelta : ((h - l) * p) >>> 32 < h - l := by
    rw [Nat.shiftRight_eq_div_pow]
    rw [Nat.div_lt_iff_lt_mul (by norm_num : (0 : Nat) < 2 ^ 32)]
    calc (h - l) * p < (h - l) * 4294967296 :=
          mul_lt_mul_of_pos_left hp (by omega)
    _ = (h - l) * 2 ^ 32 := by norm_num
  have hmid : coderMiddle l h p = l + ((h - l) * p) >>> 32 := by
    unfold coderMiddle
    exact u32_eq_of_lt (by omega)
  constructor
  · rw [hmid]; omega
  · rw [hmid]; omega

theorem encStepLH_bounds {l h p : Nat} (hlh : l < h) (hh : h < 4294967296)
    (hp : p < 4294967296) (b : Bool) :
    l ≤ (encStepLH l h p b).1 ∧ (encStepLH l h p b).1 ≤ (encStepLH l h p b).2 ∧
    (encStepLH l h p b).2 ≤ h ∧ (encStepLH l h p b).2 < 4294967296 := by
  obtain ⟨h1, h2⟩ := coderMiddle_bounds hlh hh hp
  have hmid1 : u32 (coderMiddle l h p + 1) = coderMiddle l h p + 1 :=
    u32_eq_of_lt (by omega)
  cases b with
  | false =>
    have e1 : (encStepLH l h p false).1 = u32 (coderMiddle l h p + 1) := rfl
    have e2 : (encStepLH l h p false).2 = h := rfl
    rw [e1, e2, hmid1]
    omega
  | true =>
    have e1 : (encStepLH l h p true).1 = l := rfl
    have e2 : (encStepLH l h p true).2 = coderMiddle l h p := rfl
    rw [e1, e2]
    omega

/-! ### Coder state invariants along arbitrary runs -/

/-- Invariant of the encoder between coded bits: non-empty range,
differing top bytes (the renormalization guard is false), byte output. -/
def EncInv (e : RawEncoder) : Prop :=
  e.low < e.high ∧ e.high < 4294967296 ∧ topMatch e.low e.high = false ∧ bytesOk e.out

theorem encInv_new : EncInv RawEncoder.new :=
  ⟨by norm_num [RawEncoder.new], by norm_num [RawEncoder.new], by decide, bytesOk_nil⟩

theorem encInv_bit {e : RawEncoder} (he : EncInv e) {p : Nat} (hp : p < 4294967296)
    (b : Bool) : EncInv (e.bit p b) := by
  obtain ⟨h1, h2, _, h4⟩ := he
  obtain ⟨g1, g2, g3, g4⟩ := encStepLH_bounds h1 h2 hp b
  obtain ⟨s1, s2, s3, _, _, _⟩ := renormLH_spec 4 _ _ g2 g4
  obtain ⟨x1, x2⟩ := renormLH_exit _ _ g2 g4
  rw [RawEncoder.enc_bit_eq]
  exact ⟨x2, s2, x1, bytesOk_append h4 s3⟩

/-- Encoding a list of `(prediction, bit)` pairs. -/
def RawEncoder.run : RawEncoder → List (Nat × Bool) → RawEncoder
  | e, [] => e
  | e, s :: rest => RawEncoder.run (e.bit s.1 s.2) rest

/-- All predictions in a step list fit in 32 bits. -/
def stepsOk (steps : List (Nat × Bool)) : Prop := ∀ s ∈ steps, s.1 < 4294967296

theorem encInv_run {steps : List (Nat × Bool)} :
    ∀ {e : RawEncoder}, EncInv e → stepsOk steps → EncInv (e.run steps) := by
  induction steps with
  | nil => intro e he _; exact he
  | cons s rest ih =>
    intro e he hs
    exact ih (encInv_bit he (hs s (List.mem_cons_self s rest)) s.2)
      (fun x hx => hs x (List.mem_cons_of_mem s hx))

/-- Invariant of the decoder between coded bits: the range may close up
transiently (`low = high`), but never inverts, and stays 32-bit. -/
def DecInv (d : RawDecoder) : Prop := d.low ≤ d.high ∧ d.high < 4294967296

theorem decInv_new (input : List Nat) : DecInv (RawDecoder.new input) :=
  ⟨Nat.le_refl 0, by norm_num [RawDecoder.new]⟩

/-- After the renormalization at the head of the decoder's bit step the
range is strictly non-empty again. -/
theorem decInv_renorm {d : RawDecoder} (hd : DecInv d) :
    (RawDecoder.renorm 4 d).low < (RawDecoder.renorm 4 d).high ∧
    (RawDecoder.renorm 4 d).high < 4294967296 ∧
    topMatch (RawDecoder.renorm 4 d).low (RawDecoder.renorm 4 d).high = false := by
  obtain ⟨v, l, h, inp⟩ := d
  obtain ⟨hle, hh⟩ := hd
  obtain ⟨_, s2, _, s4, _, _⟩ := renormLH_spec 4 l h hle hh
  obtain ⟨x1, x2⟩ := renormLH_exit l h hle hh
  obtain ⟨p1, p2⟩ := s4 v inp
  rw [p1, p2]
  exact ⟨x2, s2, x1⟩

theorem decInv_bit {d : RawDecoder} (hd : DecInv d) {p : Nat} (hp : p < 4294967296) :
    DecInv (d.bit p).2 := by
  obtain ⟨r1, r2, _⟩ := decInv_renorm hd
  obtain ⟨g1, g2, g3, g4⟩ := encStepLH_bounds r1 r2 hp
    (decide ((RawDecoder.renorm 4 d).value ≤
      coderMiddle (RawDecoder.renorm 4 d).low (RawDecoder.renorm 4 d).high p))
  rw [RawDecoder.bit_eq]
  exact ⟨g2, g4⟩

/-- Decoding a list of predictions into a list of bits. -/
def RawDecoder.run : RawDecoder → List Nat → List Bool × RawDecoder
  | d, [] => ([], d)
  | d, p :: rest =>
    let s := d.bit p
    let r := RawDecoder.run s.2 rest
    (s.1 :: r.1, r.2)

/-- All predictions in a list fit in 32 bits. -/
def predsOk (preds : List Nat) : Prop := ∀ p ∈ preds, p < 4294967296

theorem decInv_run {preds : List Nat} :
    ∀ {d : RawDecoder}, DecInv d → predsOk preds → DecInv (d.run preds).2 := by
  induction preds with
  | nil => intro d hd _; exact hd
  | cons p rest ih =>
    intro d hd hp
    exact ih (decInv_bit hd (hp p (List.mem_cons_self p rest)))
      (fun x hx => hp x (List.mem_cons_of_mem p hx))

/-! ### Predictor table over the raw coder

`src/main.rs` keeps the predictor table inside `BitEncoder`/`BitDecoder`
(lines 142-292); `src/secondary_context/context.rs` keeps the identical
table behind `SecondaryContext::update`.  Tables are total functions
initialized to `BitPrediction::new`. -/

/-- A fresh predictor table: every slot is `BitPrediction::new`. -/
def tableNew : Nat → Nat := fun _ => BitPrediction.new

/-- The value `usize::from(bit)`. -/
def bitVal (b : Bool) : Nat := if b then 1 else 0

/-- `BitEncoder` of `src/main.rs` lines 142-157: range encoder plus table. -/
structure BitEncoder where
  enc : RawEncoder
  states : Nat → Nat

def BitEncoder.new : BitEncoder := ⟨RawEncoder.new, tableNew⟩

/-- `BitEncoder::bit` (`src/main.rs` lines 159-187): update the slot at
`context` (obtaining the prediction before the update), then code the bit. -/
def BitEncoder.bit (E : BitEncoder) (context : Nat) (b : Bool) : BitEncoder :=
  let r := BitPrediction.update (E.states context) b
  ⟨E.enc.bit r.1 b, Function.update E.states context r.2⟩

/-- `BitEncoder::byte` (`src/main.rs` lines 189-205): two nibbles, each as
four bits in a small context tree. -/
def BitEncoder.byte (E : BitEncoder) (context : Nat) (byteVal : Nat) : BitEncoder :=
  let hi := (byteVal >>> 4) ||| 16
  let e1 := E.bit (context + 1) (decide (hi >>> 3 &&& 1 = 1))
  let e2 := e1.bit (context + (hi >>> 3)) (decide (hi >>> 2 &&& 1 = 1))
  let e3 := e2.bit (context + (hi >>> 2)) (decide (hi >>> 1 &&& 1 = 1))
  let e4 := e3.bit (context + (hi >>> 1)) (decide (hi &&& 1 = 1))
  let lowContext := context + 15 * (hi - 15)
  let lo := (byteVal &&& 15) ||| 16
  let e5 := e4.bit (lowContext + 1) (decide (lo >>> 3 &&& 1 = 1))
  let e6 := e5.bit (lowContext + (lo >>> 3)) (decide (lo >>> 2 &&& 1 = 1))
  let e7 := e6.bit (lowContext + (lo >>> 2)) (decide (lo >>> 1 &&& 1 = 1))
  e7.bit (lowContext + (lo >>> 1)) (decide (lo &&& 1 = 1))

/-- `BitDecoder` of `src/main.rs` lines 219-236. -/
structure BitDecoder where
  dec : RawDecoder
  states : Nat → Nat

def BitDecoder.new (input : List Nat) : BitDecoder := ⟨RawDecoder.new input, tableNew⟩

/-- `BitDecoder::bit` (`src/main.rs` lines 238-272): renormalize, read the
slot's prediction, derive the bit, then update the slot for that bit. -/
def BitDecoder.bit (D : BitDecoder) (context : Nat) : Bool × BitDecoder :=
  let r := D.dec.bit (BitPrediction.get (D.states context))
  (r.1, ⟨r.2, Function.update D.states context
    (BitPrediction.update (D.states context) r.1).2⟩)

/-- `BitDecoder::byte` (`src/main.rs` lines 274-287): rebuild the two
nibbles bit by bit, mirroring the encoder's context tree. -/
def BitDecoder.byte (D : BitDecoder) (context : Nat) : Nat × BitDecoder :=
  let r1 := D.bit (context + 1)
  let h1 := 1 + (1 + bitVal r1.1)
  let r2 := r1.2.bit (context + h1)
  let h2 := h1 + (h1 + bitVal r2.1)
  let r3 := r2.2.bit (context + h2)
  let h3 := h2 + (h2 + bitVal r3.1)
  let r4 := r3.2.bit (context + h3)
  let h4 := h3 + (h3 + bitVal r4.1)
  let lowContext := context + 15 * (h4 - 15)
  let s1 := r4.2.bit (lowContext + 1)
  let l1 := 1 + (1 + bitVal s1.1)
  let s2 := s1.2.bit (lowContext + l1)
  let l2 := l1 + (l1 + bitVal s2.1)
  let s3 := s2.2.bit (lowContext + l2)
  let l3 := l2 + (l2 + bitVal s3.1)
  let s4 := s3.2.bit (lowContext + l3)
  let l4 := l3 + (l3 + bitVal s4.1)
  (((h4 - 16) <<< 4) ||| (l4 - 16), s4.2)

/-! ### Scripts: flattened (context, bit) traces -/

/-- The eight (context, bit) pairs coded by `BitEncoder::byte`. -/
def byteScript (context byteVal : Nat) : List (Nat × Bool) :=
  let hi := (byteVal >>> 4) ||| 16
  let lowContext := context + 15 * (hi - 15)
  let lo := (byteVal &&& 15) ||| 16
  [(context + 1, decide (hi >>> 3 &&& 1 = 1)),
   (context + (hi >>> 3), decide (hi >>> 2 &&& 1 = 1)),
   (context + (hi >>> 2), decide (hi >>> 1 &&& 1 = 1)),
   (context + (hi >>> 1), decide (hi &&& 1 = 1)),
   (lowContext + 1, decide (lo >>> 3 &&& 1 = 1)),
   (lowContext + (lo >>> 3), decide (lo >>> 2 &&& 1 = 1)),
   (lowContext + (lo >>> 2), decide (lo >>> 1 &&& 1 = 1)),
   (lowContext + (lo >>> 1), decide (lo &&& 1 = 1))]

def BitEncoder.runScript : BitEncoder → List (Nat × Bool) → BitEncoder
  | E, [] => E
  | E, s :: rest => BitEncoder.runScript (E.bit s.1 s.2) rest

theorem BitEncoder.byte_eq_runScript (E : BitEncoder) (c v : Nat) :
    E.byte c v = E.runScript (byteScript c v) := rfl

theorem BitEncoder.runScript_append (E : BitEncoder) (s t : List (Nat × Bool)) :
    E.runScript (s ++ t) = (E.runScript s).runScript t := by
  induction s generalizing E with
  | nil => rfl
  | cons x rest ih => exact ih (E.bit x.1 x.2)

/-- The byte stream the encoder will emit from a given (post-renorm)
state for a given script, including the final close byte. -/
def encTailBytes : Nat → Nat → (Nat → Nat) → List (Nat × Bool) → List Nat
  | low, _, _, [] => [low >>> 24]
  | low, high, tbl, s :: rest =>
    let p := BitPrediction.get (tbl s.1)
    let t := encStepLH low high p s.2
    let r := renormLH 4 t.1 t.2
    r.2.2 ++ encTailBytes r.1 r.2.1
      (Function.update tbl s.1 (BitPrediction.update (tbl s.1) s.2).2) rest

/-- Running the script and closing produces exactly `encTailBytes`. -/
theorem runScript_close : ∀ (sc : List (Nat × Bool)) (E : BitEncoder),
    ((E.runScript sc).enc).close =
    E.enc.out ++ encTailBytes E.enc.low E.enc.high E.states sc := by
  intro sc
  induction sc with
  | nil => intro E; rfl
  | cons s rest ih =>
    intro E
    have hstep : (E.bit s.1 s.2).enc.out =
        E.enc.out ++ (renormLH 4 (encStepLH E.enc.low E.enc.high
          (BitPrediction.get (E.states s.1)) s.2).1
          (encStepLH E.enc.low E.enc.high (BitPrediction.get (E.states s.1)) s.2).2).2.2 :=
      rfl
    have hrun : (E.runScript (s :: rest)) = ((E.bit s.1 s.2).runScript rest) := rfl
    rw [hrun, ih (E.bit s.1 s.2)]
    rw [show (E.bit s.1 s.2).enc.low = (renormLH 4 (encStepLH E.enc.low E.enc.high
          (BitPrediction.get (E.states s.1)) s.2).1
          (encStepLH E.enc.low E.enc.high (BitPrediction.get (E.states s.1)) s.2).2).1
      from rfl]
    rw [show (E.bit s.1 s.2).enc.high = (renormLH 4 (encStepLH E.enc.low E.enc.high
          (BitPrediction.get (E.states s.1)) s.2).1
          (encStepLH E.enc.low E.enc.high (BitPrediction.get (E.states s.1)) s.2).2).2.1
      from rfl]
    rw [show (E.bit s.1 s.2).states =
        Function.update E.states s.1 (BitPrediction.update (E.states s.1) s.2).2 from rfl]
    rw [hstep, List.append_assoc]
    rfl

/-- The stream an encoder will emit from a valid state is made of bytes
and, viewed through the 32-bit window, lies inside the encoder's current
range.  This is the key soundness property of the final close byte: the
window pads with `0xFF`, and differing top bytes make
`(low >> 24) * 2^24 + 0xFFFFFF ≤ high`. -/
theorem encTail_window : ∀ (sc : List (Nat × Bool)) (low high : Nat) (tbl : Nat → Nat),
    low < high → high < 4294967296 → topMatch low high = false →
    bytesOk (encTailBytes low high tbl sc) ∧
    low ≤ windowL (encTailBytes low high tbl sc) ∧
    windowL (encTailBytes low high tbl sc) ≤ high := by
  intro sc
  induction sc with
  | nil =>
    intro low high tbl h1 h2 h3
    have hb : low >>> 24 < 256 := by
      rw [Nat.shiftRight_eq_div_pow]
      norm_num
      omega
    have hw : windowL [low >>> 24] = (low >>> 24) * 16777216 + 16777215 := by
      show (low >>> 24) * 16777216 + 255 * 65536 + 255 * 256 + 255 = _
      omega
    have hsh : low >>> 24 = low / 16777216 := by
      rw [Nat.shiftRight_eq_div_pow]
    have htops := topMatch_false_tops_ne (lt_trans h1 h2) h2 h3
    refine ⟨fun b hb2 => ?_, ?_, ?_⟩
    · have : b = low >>> 24 := by
        simpa [encTailBytes] using hb2
      exact this ▸ hb
    · show low ≤ windowL [low >>> 24]
      rw [hw, hsh]
      omega
    · show windowL [low >>> 24] ≤ high
      rw [hw, hsh]
      omega
  | cons s rest ih =>
    intro low high tbl h1 h2 h3
    have hp : BitPrediction.get (tbl s.1) < 4294967296 := BitPrediction.get_lt _
    obtain ⟨g1, g2, g3, g4⟩ := encStepLH_bounds h1 h2 hp s.2
    obtain ⟨s1, s2, s3, s4, s5, s6⟩ := renormLH_spec 4
      (encStepLH low high (BitPrediction.get (tbl s.1)) s.2).1
      (encStepLH low high (BitPrediction.get (tbl s.1)) s.2).2 g2 g4
    obtain ⟨x1, x2⟩ := renormLH_exit
      (encStepLH low high (BitPrediction.get (tbl s.1)) s.2).1
      (encStepLH low high (BitPrediction.get (tbl s.1)) s.2).2 g2 g4
    obtain ⟨ihOk, ihLo, ihHi⟩ := ih
      (renormLH 4 (encStepLH low high (BitPrediction.get (tbl s.1)) s.2).1
        (encStepLH low high (BitPrediction.get (tbl s.1)) s.2).2).1
      (renormLH 4 (encStepLH low high (BitPrediction.get (tbl s.1)) s.2).1
        (encStepLH low high (BitPrediction.get (tbl s.1)) s.2).2).2.1
      (Function.update tbl s.1 (BitPrediction.update (tbl s.1) s.2).2) x2 s2 x1
    have hunf : encTailBytes low high tbl (s :: rest) =
        (renormLH 4 (encStepLH low high (BitPrediction.get (tbl s.1)) s.2).1
          (encStepLH low high (BitPrediction.get (tbl s.1)) s.2).2).2.2 ++
        encTailBytes
          (renormLH 4 (encStepLH low high (BitPrediction.get (tbl s.1)) s.2).1
            (encStepLH low high (BitPrediction.get (tbl s.1)) s.2).2).1
          (renormLH 4 (encStepLH low high (BitPrediction.get (tbl s.1)) s.2).1
            (encStepLH low high (BitPrediction.get (tbl s.1)) s.2).2).2.1
          (Function.update tbl s.1 (BitPrediction.update (tbl s.1) s.2).2) rest := rfl
    rw [hunf]
    obtain ⟨w1, w2⟩ := s6 _ ihOk ihLo ihHi
    exact ⟨bytesOk_append s3 ihOk, le_trans g1 w1, le_trans w2 g3⟩

/-! ### The aligned decode simulation -/

/-- A decoder is aligned with an encoder run when its registers and
predictor table match the encoder's pre-renormalization state, its value
window holds the next four bytes of the stream the encoder will emit, and
its remaining input is that stream minus the four bytes already loaded. -/
def DecAligned (D : BitDecoder) (plow phigh : Nat) (tbl : Nat → Nat)
    (sc : List (Nat × Bool)) : Prop :=
  plow ≤ phigh ∧ phigh < 4294967296 ∧ D.states = tbl ∧
  D.dec = ⟨windowL ((renormLH 4 plow phigh).2.2 ++
             encTailBytes (renormLH 4 plow phigh).1 (renormLH 4 plow phigh).2.1 tbl sc),
           plow, phigh,
           ((renormLH 4 plow phigh).2.2 ++
             encTailBytes (renormLH 4 plow phigh).1 (renormLH 4 plow phigh).2.1 tbl sc).drop 4⟩

/-- One aligned decode step recovers exactly the bit the encoder coded,
and stays aligned for the rest of the script. -/
theorem dec_step_sim {D : BitDecoder} {plow phigh : Nat} {tbl : Nat → Nat}
    {c : Nat} {b : Bool} {rest : List (Nat × Bool)}
    (hA : DecAligned D plow phigh tbl ((c, b) :: rest)) :
    (D.bit c).1 = b ∧
    DecAligned (D.bit c).2
      (encStepLH (renormLH 4 plow phigh).1 (renormLH 4 plow phigh).2.1
        (BitPrediction.get (tbl c)) b).1
      (encStepLH (renormLH 4 plow phigh).1 (renormLH 4 plow phigh).2.1
        (BitPrediction.get (tbl c)) b).2
      (Function.update tbl c (BitPrediction.update (tbl c) b).2) rest := by
  obtain ⟨hle, hlt, hst, hdec⟩ := hA
  obtain ⟨q1, q2, q3, q4, q5, q6⟩ := renormLH_spec 4 plow phigh hle hlt
  obtain ⟨z1, z2⟩ := renormLH_exit plow phigh hle hlt
  have hp : BitPrediction.get (tbl c) < 4294967296 := BitPrediction.get_lt _
  obtain ⟨g1, g2, g3, g4⟩ := encStepLH_bounds z2 q2 hp b
  obtain ⟨s1, s2, s3, s4, s5, s6⟩ := renormLH_spec 4
    (encStepLH (renormLH 4 plow phigh).1 (renormLH 4 plow phigh).2.1
      (BitPrediction.get (tbl c)) b).1
    (encStepLH (renormLH 4 plow phigh).1 (renormLH 4 plow phigh).2.1
      (BitPrediction.get (tbl c)) b).2 g2 g4
  obtain ⟨x1, x2⟩ := renormLH_exit
    (encStepLH (renormLH 4 plow phigh).1 (renormLH 4 plow phigh).2.1
      (BitPrediction.get (tbl c)) b).1
    (encStepLH (renormLH 4 plow phigh).1 (renormLH 4 plow phigh).2.1
      (BitPrediction.get (tbl c)) b).2 g2 g4
  obtain ⟨tOk, tLo, tHi⟩ := encTail_window rest
    (renormLH 4 (encStepLH (renormLH 4 plow phigh).1 (renormLH 4 plow phigh).2.1
      (BitPrediction.get (tbl c)) b).1
      (encStepLH (renormLH 4 plow phigh).1 (renormLH 4 plow phigh).2.1
        (BitPrediction.get (tbl c)) b).2).1
    (renormLH 4 (encStepLH (renormLH 4 plow phigh).1 (renormLH 4 plow phigh).2.1
      (BitPrediction.get (tbl c)) b).1
      (encStepLH (renormLH 4 plow phigh).1 (renormLH 4 plow phigh).2.1
        (BitPrediction.get (tbl c)) b).2).2.1
    (Function.update tbl c (BitPrediction.update (tbl c) b).2) x2 s2 x1
  -- the full tail for the head script decomposes through the head step
  have hunfT : encTailBytes (renormLH 4 plow phigh).1 (renormLH 4 plow phigh).2.1 tbl
      ((c, b) :: rest) =
      (renormLH 4 (encStepLH (renormLH 4 plow phigh).1 (renormLH 4 plow phigh).2.1
        (BitPrediction.get (tbl c)) b).1
        (encStepLH (renormLH 4 plow phigh).1 (renormLH 4 plow phigh).2.1
          (BitPrediction.get (tbl c)) b).2).2.2 ++
      encTailBytes
        (renormLH 4 (encStepLH (renormLH 4 plow phigh).1 (renormLH 4 plow phigh).2.1
          (BitPrediction.get (tbl c)) b).1
          (encStepLH (renormLH 4 plow phigh).1 (renormLH 4 plow phigh).2.1
            (BitPrediction.get (tbl c)) b).2).1
        (renormLH 4 (encStepLH (renormLH 4 plow phigh).1 (renormLH 4 plow phigh).2.1
          (BitPrediction.get (tbl c)) b).1
          (encStepLH (renormLH 4 plow phigh).1 (renormLH 4 plow phigh).2.1
            (BitPrediction.get (tbl c)) b).2).2.1
        (Function.update tbl c (BitPrediction.update (tbl c) b).2) rest := rfl
  have hTok : bytesOk (encTailBytes (renormLH 4 plow phigh).1 (renormLH 4 plow phigh).2.1
      tbl ((c, b) :: rest)) := by
    rw [hunfT]
    exact bytesOk_append s3 tOk
  obtain ⟨wLo, wHi⟩ := s6 _ tOk tLo tHi
  have hwin : (encStepLH (renormLH 4 plow phigh).1 (renormLH 4 plow phigh).2.1
        (BitPrediction.get (tbl c)) b).1 ≤
      windowL (encTailBytes (renormLH 4 plow phigh).1 (renormLH 4 plow phigh).2.1 tbl
        ((c, b) :: rest)) ∧
      windowL (encTailBytes (renormLH 4 plow phigh).1 (renormLH 4 plow phigh).2.1 tbl
        ((c, b) :: rest)) ≤
      (encStepLH (renormLH 4 plow phigh).1 (renormLH 4 plow phigh).2.1
        (BitPrediction.get (tbl c)) b).2 := by
    rw [hunfT]
    exact ⟨wLo, wHi⟩
  -- the entry renormalization restores alignment at the post-renorm state
  have hren : RawDecoder.renorm 4 D.dec =
      ⟨windowL (encTailBytes (renormLH 4 plow phigh).1 (renormLH 4 plow phigh).2.1 tbl
         ((c, b) :: rest)),
       (renormLH 4 plow phigh).1, (renormLH 4 plow phigh).2.1,
       (encTailBytes (renormLH 4 plow phigh).1 (renormLH 4 plow phigh).2.1 tbl
         ((c, b) :: rest)).drop 4⟩ := by
    rw [hdec]
    exact q5 _ hTok
  -- the decoded bit: compare the window against the split point
  have hmid := coderMiddle_bounds z2 q2 hp
  have hbitv : decide
      (windowL (encTailBytes (renormLH 4 plow phigh).1 (renormLH 4 plow phigh).2.1 tbl
        ((c, b) :: rest)) ≤
       coderMiddle (renormLH 4 plow phigh).1 (renormLH 4 plow phigh).2.1
         (BitPrediction.get (tbl c))) = b := by
    cases b with
    | true =>
      have he : (encStepLH (renormLH 4 plow phigh).1 (renormLH 4 plow phigh).2.1
          (BitPrediction.get (tbl c)) true).2 =
          coderMiddle (renormLH 4 plow phigh).1 (renormLH 4 plow phigh).2.1
          (BitPrediction.get (tbl c)) := rfl
      rw [he] at hwin
      exact decide_eq_true hwin.2
    | false =>
      have h1m : (encStepLH (renormLH 4 plow phigh).1 (renormLH 4 plow phigh).2.1
          (BitPrediction.get (tbl c)) false).1 =
          u32 (coderMiddle (renormLH 4 plow phigh).1 (renormLH 4 plow phigh).2.1
            (BitPrediction.get (tbl c)) + 1) := rfl
      have hu : u32 (coderMiddle (renormLH 4 plow phigh).1 (renormLH 4 plow phigh).2.1
          (BitPrediction.get (tbl c)) + 1) =
          coderMiddle (renormLH 4 plow phigh).1 (renormLH 4 plow phigh).2.1
            (BitPrediction.get (tbl c)) + 1 :=
        u32_eq_of_lt (by omega)
      rw [h1m, hu] at hwin
      exact decide_eq_false (by omega)
  have hbit : (D.bit c).1 = b := by
    show (D.dec.bit (BitPrediction.get (D.states c))).1 = b
    rw [hst, RawDecoder.bit_eq, hren]
    exact hbitv
  have hb2 : (D.dec.bit (BitPrediction.get (tbl c))).1 = b := by
    rw [← hst]
    exact hbit
  refine ⟨hbit, g2, g4, ?_, ?_⟩
  · show Function.update D.states c
        (BitPrediction.update (D.states c) (D.dec.bit (BitPrediction.get (D.states c))).1).2 =
      Function.update tbl c (BitPrediction.update (tbl c) b).2
    rw [hst, hb2]
  · show (D.dec.bit (BitPrediction.get (D.states c))).2 = _
    rw [hst, RawDecoder.bit_eq, hren]
    rw [show ((⟨windowL (encTailBytes (renormLH 4 plow phigh).1 (renormLH 4 plow phigh).2.1
        tbl ((c, b) :: rest)), (renormLH 4 plow phigh).1, (renormLH 4 plow phigh).2.1,
        (encTailBytes (renormLH 4 plow phigh).1 (renormLH 4 plow phigh).2.1 tbl
          ((c, b) :: rest)).drop 4⟩ : RawDecoder).value) =
        windowL (encTailBytes (renormLH 4 plow phigh).1 (renormLH 4 plow phigh).2.1 tbl
          ((c, b) :: rest)) from rfl]
    rw [show ((⟨windowL (encTailBytes (renormLH 4 plow phigh).1 (renormLH 4 plow phigh).2.1
        tbl ((c, b) :: rest)), (renormLH 4 plow phigh).1, (renormLH 4 plow phigh).2.1,
        (encTailBytes (renormLH 4 plow phigh).1 (renormLH 4 plow phigh).2.1 tbl
          ((c, b) :: rest)).drop 4⟩ : RawDecoder).low) = (renormLH 4 plow phigh).1 from rfl]
    rw [show ((⟨windowL (encTailBytes (renormLH 4 plow phigh).1 (renormLH 4 plow phigh).2.1
        tbl ((c, b) :: rest)), (renormLH 4 plow phigh).1, (renormLH 4 plow phigh).2.1,
        (encTailBytes (renormLH 4 plow phigh).1 (renormLH 4 plow phigh).2.1 tbl
          ((c, b) :: rest)).drop 4⟩ : RawDecoder).high) = (renormLH 4 plow phigh).2.1 from rfl]
    rw [show ((⟨windowL (encTailBytes (renormLH 4 plow phigh).1 (renormLH 4 plow phigh).2.1
        tbl ((c, b) :: rest)), (renormLH 4 plow phigh).1, (renormLH 4 plow phigh).2.1,
        (encTailBytes (renormLH 4 plow phigh).1 (renormLH 4 plow phigh).2.1 tbl
          ((c, b) :: rest)).drop 4⟩ : RawDecoder).input) =
        (encTailBytes (renormLH 4 plow phigh).1 (renormLH 4 plow phigh).2.1 tbl
          ((c, b) :: rest)).drop 4 from rfl]
    rw [hbitv, ← hunfT]

/-- Bit arithmetic of the nibble trees: the decoder's accumulator, fed
with the bits the encoder sent, rebuilds the nibble values and hence the
byte.  Checked for all 256 byte values. -/
theorem nibble_facts : ∀ v : Nat, v < 256 →
    (1 + (1 + bitVal (decide ((((v >>> 4) ||| 16) >>> 3) &&& 1 = 1))) =
      ((v >>> 4) ||| 16) >>> 3) ∧
    (((v >>> 4) ||| 16) >>> 3 + (((v >>> 4) ||| 16) >>> 3 +
        bitVal (decide ((((v >>> 4) ||| 16) >>> 2) &&& 1 = 1))) =
      ((v >>> 4) ||| 16) >>> 2) ∧
    (((v >>> 4) ||| 16) >>> 2 + (((v >>> 4) ||| 16) >>> 2 +
        bitVal (decide ((((v >>> 4) ||| 16) >>> 1) &&& 1 = 1))) =
      ((v >>> 4) ||| 16) >>> 1) ∧
    (((v >>> 4) ||| 16) >>> 1 + (((v >>> 4) ||| 16) >>> 1 +
        bitVal (decide (((v >>> 4) ||| 16) &&& 1 = 1))) =
      (v >>> 4) ||| 16) ∧
    (1 + (1 + bitVal (decide ((((v &&& 15) ||| 16) >>> 3) &&& 1 = 1))) =
      ((v &&& 15) ||| 16) >>> 3) ∧
    (((v &&& 15) ||| 16) >>> 3 + (((v &&& 15) ||| 16) >>> 3 +
        bitVal (decide ((((v &&& 15) ||| 16) >>> 2) &&& 1 = 1))) =
      ((v &&& 15) ||| 16) >>> 2) ∧
    (((v &&& 15) ||| 16) >>> 2 + (((v &&& 15) ||| 16) >>> 2 +
        bitVal (decide ((((v &&& 15) ||| 16) >>> 1) &&& 1 = 1))) =
      ((v &&& 15) ||| 16) >>> 1) ∧
    (((v &&& 15) ||| 16) >>> 1 + (((v &&& 15) ||| 16) >>> 1 +
        bitVal (decide (((v &&& 15) ||| 16) &&& 1 = 1))) =
      (v &&& 15) ||| 16) ∧
    ((((v >>> 4) ||| 16) - 16) <<< 4 ||| (((v &&& 15) ||| 16) - 16) = v) := by
  decide

/-- Existential form of the one-step simulation: the parameters of the
continued alignment stay abstract, keeping terms small. -/
theorem dec_step_sim_ex {D : BitDecoder} {plow phigh : Nat} {tbl : Nat → Nat}
    {c : Nat} {b : Bool} {rest : List (Nat × Bool)}
    (hA : DecAligned D plow phigh tbl ((c, b) :: rest)) :
    (D.bit c).1 = b ∧
    ∃ plow2 phigh2 tbl2, DecAligned (D.bit c).2 plow2 phigh2 tbl2 rest :=
  ⟨(dec_step_sim hA).1, _, _, _, (dec_step_sim hA).2⟩

/-- Decoding a byte under the aligned simulation recovers the byte the
encoder coded and stays aligned for the rest of the script. -/
theorem dec_byte_sim {D : BitDecoder} {plow phigh : Nat} {tbl : Nat → Nat}
    {c v : Nat} (hv : v < 256) {rest : List (Nat × Bool)}
    (hA : DecAligned D plow phigh tbl (byteScript c v ++ rest)) :
    (D.byte c).1 = v ∧
    ∃ plow2 phigh2 tbl2, DecAligned (D.byte c).2 plow2 phigh2 tbl2 rest := by
  obtain ⟨f1, f2, f3, f4, f5, f6, f7, f8, f9⟩ := nibble_facts v hv
  obtain ⟨e1, p1, q1, t1, hA1⟩ := dec_step_sim_ex hA
  simp only [BitDecoder.byte]
  rw [e1, f1]
  obtain ⟨e2, p2, q2, t2, hA2⟩ := dec_step_sim_ex hA1
  rw [e2, f2]
  obtain ⟨e3, p3, q3, t3, hA3⟩ := dec_step_sim_ex hA2
  rw [e3, f3]
  obtain ⟨e4, p4, q4, t4, hA4⟩ := dec_step_sim_ex hA3
  rw [e4, f4]
  obtain ⟨e5, p5, q5, t5, hA5⟩ := dec_step_sim_ex hA4
  rw [e5, f5]
  obtain ⟨e6, p6, q6, t6, hA6⟩ := dec_step_sim_ex hA5
  rw [e6, f6]
  obtain ⟨e7, p7, q7, t7, hA7⟩ := dec_step_sim_ex hA6
  rw [e7, f7]
  obtain ⟨e8, p8, q8, t8, hA8⟩ := dec_step_sim_ex hA7
  rw [e8, f8]
  exact ⟨f9, _, _, _, hA8⟩

/-! ### Primary model: order-3 symbol ranking

From `src/main.rs` lines 481-611 (`MatchingContext`, `MatchingContexts`);
the identical slot logic appears in `src/primary_context/history.rs`
(`ByteHistory`). -/

/-- The four match outcomes (`src/main.rs` lines 481-486). -/
inductive ByteMatched
  | FIRST
  | SECOND
  | THIRD
  | NONE
  deriving Repr, DecidableEq

namespace MatchingContext

/-- `MatchingContext::get` (`src/main.rs` lines 496-503): first, second
and third ranked bytes and the match count packed in one `u32`. -/
def get (c : Nat) : Nat × Nat × Nat × Nat :=
  (c % 256, (c >>> 8) % 256, (c >>> 16) % 256, c >>> 24)

/-- `MatchingContext::matching` (`src/main.rs` lines 505-535): classify
`next_byte` against the slot and update the slot. -/
def matching (c : Nat) (nextByte : Nat) : ByteMatched × Nat :=
  let mask := c ^^^ (0x10101 * nextByte)
  if mask &&& 0xFF = 0 then
    (ByteMatched.FIRST, if c < 0xFF000000 then c + 0x1000000 else c)
  else if mask &&& 0xFF00 = 0 then
    (ByteMatched.SECOND,
      (c &&& 0xFF0000) ||| (u32 (c <<< 8) &&& 0xFF00) ||| nextByte ||| 0x1000000)
  else if mask &&& 0xFF0000 = 0 then
    (ByteMatched.THIRD, (u32 (c <<< 8) &&& 0xFFFF00) ||| nextByte ||| 0x1000000)
  else
    (ByteMatched.NONE, (u32 (c <<< 8) &&& 0xFFFF00) ||| nextByte)

/-- `MatchingContext::matched` (`src/main.rs` lines 537-563): apply a
known outcome to the slot (the decoder's side of `matching`). -/
def matched (c : Nat) (nextByte : Nat) : ByteMatched → Nat
  | ByteMatched.FIRST => if c < 0xFF000000 then c + 0x1000000 else c
  | ByteMatched.SECOND =>
      (c &&& 0xFF0000) ||| (u32 (c <<< 8) &&& 0xFF00) ||| nextByte ||| 0x1000000
  | ByteMatched.THIRD => (u32 (c <<< 8) &&& 0xFFFF00) ||| nextByte ||| 0x1000000
  | ByteMatched.NONE => (u32 (c <<< 8) &&& 0xFFFF00) ||| nextByte

/-- The encoder's `matching` and the decoder's `matched` perform the same
slot update. -/
theorem matched_matching (c b : Nat) :
    matched c b (matching c b).1 = (matching c b).2 := by
  unfold matching
  by_cases h1 : (c ^^^ (0x10101 * b)) &&& 0xFF = 0
  · simp [h1, matched]
  · by_cases h2 : (c ^^^ (0x10101 * b)) &&& 0xFF00 = 0
    · simp [h1, h2, matched]
    · by_cases h3 : (c ^^^ (0x10101 * b)) &&& 0xFF0000 = 0
      · simp [h1, h2, h3, matched]
      · simp [h1, h2, h3, matched]

end MatchingContext

/-- Byte-field characterizations of the three match masks. -/
theorem mask0_iff {c b : Nat} (hb : b < 256) :
    ((c ^^^ (0x10101 * b)) &&& 0xFF = 0) ↔ c % 256 = b := by
  rw [Nat.and_xor_distrib_right, and_mask_eq_mod, and_mask_eq_mod]
  have hm : 0x10101 * b % 256 = b := by omega
  rw [hm, Nat.xor_eq_zero]

theorem mask1_iff {c b : Nat} (hb : b < 256) :
    ((c ^^^ (0x10101 * b)) &&& 0xFF00 = 0) ↔ (c >>> 8) % 256 = b := by
  have hmask : (0xFF00 : Nat) = 255 <<< 8 := by decide
  rw [hmask, and_shifted_mask, shiftRight_xor_distrib]
  rw [Nat.shiftLeft_eq]
  have hz : ∀ z : Nat, z * 2 ^ 8 = 0 ↔ z = 0 := fun z => by omega
  rw [hz, Nat.and_xor_distrib_right, and_mask_eq_mod, and_mask_eq_mod]
  have hm : (0x10101 * b) >>> 8 % 256 = b := by
    rw [Nat.shiftRight_eq_div_pow]
    norm_num
    have hsplit : 65793 * b = 256 * (257 * b) + b := by ring
    rw [hsplit, Nat.mul_add_div (by norm_num), Nat.div_eq_of_lt hb, Nat.add_zero]
    have h257 : 257 * b = b + 256 * b := by ring
    rw [h257, Nat.add_mul_mod_self_left, Nat.mod_eq_of_lt hb]
  rw [hm, Nat.xor_eq_zero]

theorem mask2_iff {c b : Nat} (hb : b < 256) :
    ((c ^^^ (0x10101 * b)) &&& 0xFF0000 = 0) ↔ (c >>> 16) % 256 = b := by
  have hmask : (0xFF0000 : Nat) = 255 <<< 16 := by decide
  rw [hmask, and_shifted_mask, shiftRight_xor_distrib]
  rw [Nat.shiftLeft_eq]
  have hz : ∀ z : Nat, z * 2 ^ 16 = 0 ↔ z = 0 := fun z => by omega
  rw [hz, Nat.and_xor_distrib_right, and_mask_eq_mod, and_mask_eq_mod]
  have hm : (0x10101 * b) >>> 16 % 256 = b := by
    rw [Nat.shiftRight_eq_div_pow]
    norm_num
    have hsplit : 65793 * b = 65536 * b + 257 * b := by ring
    rw [hsplit, Nat.mul_add_div (by norm_num), Nat.div_eq_of_lt (by omega), Nat.add_zero,
      Nat.mod_eq_of_lt hb]
  rw [hm, Nat.xor_eq_zero]

/-- A FIRST outcome means the byte equals the slot's first byte. -/
theorem matching_first_eq {c b : Nat} (hb : b < 256)
    (h : (MatchingContext.matching c b).1 = ByteMatched.FIRST) : b = c % 256 := by
  by_cases h1 : (c ^^^ (0x10101 * b)) &&& 0xFF = 0
  · exact ((mask0_iff hb).mp h1).symm
  · by_cases h2 : (c ^^^ (0x10101 * b)) &&& 0xFF00 = 0
    · simp [MatchingContext.matching, h1, h2] at h
    · by_cases h3 : (c ^^^ (0x10101 * b)) &&& 0xFF0000 = 0
      · simp [MatchingContext.matching, h1, h2, h3] at h
      · simp [MatchingContext.matching, h1, h2, h3] at h

/-- A SECOND outcome means the byte equals the slot's second byte. -/
theorem matching_second_eq {c b : Nat} (hb : b < 256)
    (h : (MatchingContext.matching c b).1 = ByteMatched.SECOND) : b = (c >>> 8) % 256 := by
  by_cases h1 : (c ^^^ (0x10101 * b)) &&& 0xFF = 0
  · simp [MatchingContext.matching, h1] at h
  · by_cases h2 : (c ^^^ (0x10101 * b)) &&& 0xFF00 = 0
    · exact ((mask1_iff hb).mp h2).symm
    · by_cases h3 : (c ^^^ (0x10101 * b)) &&& 0xFF0000 = 0
      · simp [MatchingContext.matching, h1, h2, h3] at h
      · simp [MatchingContext.matching, h1, h2, h3] at h

/-- A THIRD outcome means the byte equals the slot's third byte. -/
theorem matching_third_eq {c b : Nat} (hb : b < 256)
    (h : (MatchingContext.matching c b).1 = ByteMatched.THIRD) : b = (c >>> 16) % 256 := by
  by_cases h1 : (c ^^^ (0x10101 * b)) &&& 0xFF = 0
  · simp [MatchingContext.matching, h1] at h
  · by_cases h2 : (c ^^^ (0x10101 * b)) &&& 0xFF00 = 0
    · simp [MatchingContext.matching, h1, h2] at h
    · by_cases h3 : (c ^^^ (0x10101 * b)) &&& 0xFF0000 = 0
      · exact ((mask2_iff hb).mp h3).symm
      · simp [MatchingContext.matching, h1, h2, h3] at h

/-- A NONE outcome (the miss case) means the byte differs from the slot's
first byte at the moment of classification. -/
theorem matching_none_ne_first {c b : Nat} (hb : b < 256)
    (h : (MatchingContext.matching c b).1 = ByteMatched.NONE) : b ≠ c % 256 := by
  by_cases h1 : (c ^^^ (0x10101 * b)) &&& 0xFF = 0
  · simp [MatchingContext.matching, h1] at h
  · intro heq
    exact h1 ((mask0_iff hb).mpr heq.symm)

/-- The slot update keeps the slot inside 32 bits (for a byte input). -/
theorem matching_lt {c b : Nat} (hc : c < 4294967296) (hb : b < 256) :
    (MatchingContext.matching c b).2 < 4294967296 := by
  have h32 : (4294967296 : Nat) = 2 ^ 32 := by norm_num
  have hor : ∀ x y : Nat, x < 4294967296 → y < 4294967296 → (x ||| y) < 4294967296 := by
    intro x y hx hy
    rw [h32] at hx hy ⊢
    exact Nat.or_lt_two_pow hx hy
  have h1 : c &&& 0xFF0000 < 4294967296 :=
    lt_of_le_of_lt Nat.and_le_right (by norm_num)
  have h2 : u32 (c <<< 8) &&& 0xFF00 < 4294967296 :=
    lt_of_le_of_lt Nat.and_le_right (by norm_num)
  have h3 : u32 (c <<< 8) &&& 0xFFFF00 < 4294967296 :=
    lt_of_le_of_lt Nat.and_le_right (by norm_num)
  have hcnt : (16777216 : Nat) < 4294967296 := by norm_num
  unfold MatchingContext.matching
  by_cases g1 : (c ^^^ (0x10101 * b)) &&& 0xFF = 0
  · simp only [g1, if_pos rfl]
    split_ifs with g0 <;> omega
  · by_cases g2 : (c ^^^ (0x10101 * b)) &&& 0xFF00 = 0
    · simp [g1, g2]
      exact hor _ _ (hor _ _ (hor _ _ h1 h2) (by omega)) hcnt
    · by_cases g3 : (c ^^^ (0x10101 * b)) &&& 0xFF0000 = 0
      · simp [g1, g2, g3]
        exact hor _ _ (hor _ _ h3 (by omega)) hcnt
      · simp [g1, g2, g3]
        exact hor _ _ h3 (by omega)

/-- `MatchingContexts` (`src/main.rs` lines 570-611): the `2^24`-slot
context table, the last byte, and the rolling hash. -/
structure MatchingContexts where
  lastByte : Nat
  hashValue : Nat
  contexts : Nat → Nat

def MatchingContexts.new : MatchingContexts := ⟨0, 0, fun _ => 0⟩

/-- `MatchingContexts::matching` (`src/main.rs` lines 595-602): match in
the current slot, then roll `last_byte` and the hash
`h ← (h * 160 + b + 1) mod 2^24`. -/
def MatchingContexts.matching (s : MatchingContexts) (nextByte : Nat) :
    ByteMatched × MatchingContexts :=
  let r := MatchingContext.matching (s.contexts s.hashValue) nextByte
  (r.1, ⟨nextByte, (s.hashValue * (5 <<< 5) + nextByte + 1) &&& 0xFFFFFF,
    Function.update s.contexts s.hashValue r.2⟩)

/-- `MatchingContexts::matched` (`src/main.rs` lines 604-610). -/
def MatchingContexts.matched (s : MatchingContexts) (nextByte : Nat) (m : ByteMatched) :
    MatchingContexts :=
  ⟨nextByte, (s.hashValue * (5 <<< 5) + nextByte + 1) &&& 0xFFFFFF,
    Function.update s.contexts s.hashValue
      (MatchingContext.matched (s.contexts s.hashValue) nextByte m)⟩

theorem MatchingContexts.roll_matched_matching (s : MatchingContexts) (b : Nat) :
    s.matched b (s.matching b).1 = (s.matching b).2 := by
  unfold MatchingContexts.matched MatchingContexts.matching
  rw [MatchingContext.matched_matching]

/-- Well-formedness of the rolling state: 32-bit slots, byte-sized last
byte, 24-bit hash. -/
def ContextsOk (s : MatchingContexts) : Prop :=
  (∀ i, s.contexts i < 4294967296) ∧ s.lastByte < 256 ∧ s.hashValue < 16777216

theorem contextsOk_new : ContextsOk MatchingContexts.new :=
  ⟨fun _ => by norm_num [MatchingContexts.new], by norm_num [MatchingContexts.new],
   by norm_num [MatchingContexts.new]⟩

theorem hash_lt (s : MatchingContexts) (b : Nat) :
    (s.hashValue * (5 <<< 5) + b + 1) &&& 0xFFFFFF < 16777216 := by
  rw [show (0xFFFFFF : Nat) = 16777215 from rfl, and_mask24_eq_mod]
  omega

theorem contextsOk_matching {s : MatchingContexts} (hs : ContextsOk s) {b : Nat}
    (hb : b < 256) : ContextsOk (s.matching b).2 := by
  obtain ⟨h1, _, _⟩ := hs
  refine ⟨?_, hb, hash_lt s b⟩
  intro i
  show Function.update s.contexts s.hashValue
    (MatchingContext.matching (s.contexts s.hashValue) b).2 i < 4294967296
  by_cases hi : i = s.hashValue
  · subst hi
    rw [Function.update_same]
    exact matching_lt (h1 _) hb
  · rw [Function.update_noteq hi]
    exact h1 i

theorem contextsOk_matched {s : MatchingContexts} (hs : ContextsOk s) {b : Nat}
    (hb : b < 256) (m : ByteMatched) : ContextsOk (s.matched b m) := by
  obtain ⟨h1, _, _⟩ := hs
  refine ⟨?_, hb, hash_lt s b⟩
  intro i
  show Function.update s.contexts s.hashValue
    (MatchingContext.matched (s.contexts s.hashValue) b m) i < 4294967296
  by_cases hi : i = s.hashValue
  · subst hi
    rw [Function.update_same]
    have hm : ∀ c, c < 4294967296 → MatchingContext.matched c b m < 4294967296 := by
      intro c hc
      have h32 : (4294967296 : Nat) = 2 ^ 32 := by norm_num
      have hor : ∀ x y : Nat, x < 4294967296 → y < 4294967296 → (x ||| y) < 4294967296 := by
        intro x y hx hy
        rw [h32] at hx hy ⊢
        exact Nat.or_lt_two_pow hx hy
      cases m with
      | FIRST =>
        show (if c < 0xFF000000 then c + 0x1000000 else c) < 4294967296
        split_ifs <;> omega
      | SECOND =>
        exact hor _ _ (hor _ _ (hor _ _
          (lt_of_le_of_lt Nat.and_le_right (by norm_num))
          (lt_of_le_of_lt Nat.and_le_right (by norm_num))) (by omega)) (by norm_num)
      | THIRD =>
        exact hor _ _ (hor _ _
          (lt_of_le_of_lt Nat.and_le_right (by norm_num)) (by omega)) (by norm_num)
      | NONE =>
        exact hor _ _ (lt_of_le_of_lt Nat.and_le_right (by norm_num)) (by omega)
    exact hm _ (h1 _)
  · rw [Function.update_noteq hi]
    exact h1 i

/-! ### Stream contexts: secondary context index computation -/

/-- Table sizes: `PRIMARY_CONTEXT_SIZE_LOG` and `SECONDARY_CONTEXT_SIZE`
(`src/main.rs` lines 623-624). -/
def SECONDARY_CONTEXT_SIZE : Nat := (1024 + 32) * 768 + 0x400000

/-- The same constant as written in `src/bridged_context.rs` line 25. -/
def SECONDARY_CONTEXT_SIZE_BRIDGED : Nat := 0x4000 * 256 + (1024 + 32) * 768

/-- `StreamContexts::calculate_context` (`src/main.rs` lines 646-672):
the current slot's bytes plus the four secondary context indices. -/
def calculateContext (s : MatchingContexts) :
    Nat × Nat × Nat × Nat × Nat × Nat × Nat :=
  match MatchingContext.get (s.contexts s.hashValue) with
  | (firstByte, secondByte, thirdByte, count) =>
    let bitContext : Nat :=
      (if count < 4 then ((s.lastByte <<< 2) ||| count)
       else 1024 + (Nat.min (count - 4) 63 >>> 1)) * 768 + 0x400000
    let firstContext : Nat := bitContext + firstByte
    let secondContext : Nat := bitContext + 256 + (secondByte + thirdByte) % 256
    let thirdContext : Nat := bitContext + 512 + (secondByte * 2 % 256 + 256 - thirdByte) % 256
    let literalContext : Nat := (s.hashValue &&& 0x3FFF) * 256
    (firstByte, secondByte, thirdByte, firstContext, secondContext, thirdContext,
      literalContext)

/-- Bounds on everything `calculate_context` returns: ranked bytes are
bytes; the three decision contexts and the literal context (plus the
largest in-tree offset 255 of the byte coder) stay below the secondary
table size. -/
theorem calculateContext_bounds {s : MatchingContexts} (hs : ContextsOk s) :
    (calculateContext s).1 < 256 ∧
    (calculateContext s).2.1 < 256 ∧
    (calculateContext s).2.2.1 < 256 ∧
    (calculateContext s).2.2.2.1 < SECONDARY_CONTEXT_SIZE ∧
    (calculateContext s).2.2.2.2.1 < SECONDARY_CONTEXT_SIZE ∧
    (calculateContext s).2.2.2.2.2.1 < SECONDARY_CONTEXT_SIZE ∧
    (calculateContext s).2.2.2.2.2.2 + 255 < SECONDARY_CONTEXT_SIZE := by
  obtain ⟨hctx, hlb, hhash⟩ := hs
  have hc := hctx s.hashValue
  have hcount : s.contexts s.hashValue >>> 24 < 256 := by
    rw [Nat.shiftRight_eq_div_pow]
    omega
  have hbc : (if s.contexts s.hashValue >>> 24 < 4
        then ((s.lastByte <<< 2) ||| (s.contexts s.hashValue >>> 24))
        else 1024 + (Nat.min (s.contexts s.hashValue >>> 24 - 4) 63 >>> 1)) * 768
        + 0x400000 ≤ 5004544 := by
    by_cases hsmall : s.contexts s.hashValue >>> 24 < 4
    · rw [if_pos hsmall]
      have hsl : s.lastByte <<< 2 = s.lastByte * 2 ^ 2 := Nat.shiftLeft_eq _ _
      have hor : (s.lastByte <<< 2) ||| (s.contexts s.hashValue >>> 24) =
          s.lastByte * 2 ^ 2 + (s.contexts s.hashValue >>> 24) := by
        rw [hsl]
        exact mul_pow_lor_eq_add _ (by omega)
      rw [hor]
      have : s.lastByte * 2 ^ 2 + s.contexts s.hashValue >>> 24 ≤ 1023 := by omega
      omega
    · rw [if_neg hsmall]
      have hmin : Nat.min (s.contexts s.hashValue >>> 24 - 4) 63 ≤ 63 := Nat.min_le_right _ _
      have : Nat.min (s.contexts s.hashValue >>> 24 - 4) 63 >>> 1 ≤ 31 := by
        rw [Nat.shiftRight_eq_div_pow]
        omega
      omega
  have hfb : (calculateContext s).1 = s.contexts s.hashValue % 256 := rfl
  have hsb : (calculateContext s).2.1 = (s.contexts s.hashValue >>> 8) % 256 := rfl
  have htb : (calculateContext s).2.2.1 = (s.contexts s.hashValue >>> 16) % 256 := rfl
  have hc1 : (calculateContext s).2.2.2.1 =
      (if s.contexts s.hashValue >>> 24 < 4
        then ((s.lastByte <<< 2) ||| (s.contexts s.hashValue >>> 24))
        else 1024 + (Nat.min (s.contexts s.hashValue >>> 24 - 4) 63 >>> 1)) * 768
        + 0x400000 + s.contexts s.hashValue % 256 := rfl
  have hc2 : (calculateContext s).2.2.2.2.1 =
      (if s.contexts s.hashValue >>> 24 < 4
        then ((s.lastByte <<< 2) ||| (s.contexts s.hashValue >>> 24))
        else 1024 + (Nat.min (s.contexts s.hashValue >>> 24 - 4) 63 >>> 1)) * 768
        + 0x400000 + 256 +
        ((s.contexts s.hashValue >>> 8) % 256 + (s.contexts s.hashValue >>> 16) % 256) % 256 :=
    rfl
  have hc3 : (calculateContext s).2.2.2.2.2.1 =
      (if s.contexts s.hashValue >>> 24 < 4
        then ((s.lastByte <<< 2) ||| (s.contexts s.hashValue >>> 24))
        else 1024 + (Nat.min (s.contexts s.hashValue >>> 24 - 4) 63 >>> 1)) * 768
        + 0x400000 + 512 +
        ((s.contexts s.hashValue >>> 8) % 256 * 2 % 256 + 256 -
          (s.contexts s.hashValue >>> 16) % 256) % 256 := rfl
  have hcl : (calculateContext s).2.2.2.2.2.2 = (s.hashValue &&& 0x3FFF) * 256 := rfl
  have hclv : (s.hashValue &&& 0x3FFF) * 256 ≤ 4194048 := by
    rw [show (0x3FFF : Nat) = 16383 from rfl, and_mask14_eq_mod]
    have : s.hashValue % 16384 ≤ 16383 := by omega
    omega
  rw [hfb, hsb, htb, hc1, hc2, hc3, hcl]
  unfold SECONDARY_CONTEXT_SIZE
  refine ⟨by omega, by omega, by omega, by omega, by omega, by omega, by omega⟩

/-! ### The packed message buffer

`BufferedEncoder` (`src/main.rs` lines 334-366) packs each event into one
`u32`; the encoder thread (`src/main.rs` lines 408-434) unpacks them. -/

/-- `BufferedEncoder::bit`: `((context << 9) + bit) as u32`. -/
def packBit (context : Nat) (b : Bool) : Nat := u32 ((context <<< 9) + bitVal b)

/-- `BufferedEncoder::byte`: `((context << 9) + byte + 0x100) as u32`. -/
def packByte (context v : Nat) : Nat := u32 ((context <<< 9) + v + 0x100)

/-- The encoder thread's dispatch loop (`src/main.rs` lines 424-431):
`value & 0x100` selects bit or byte, `value >> 9` is the context. -/
def runPacked : BitEncoder → List Nat → BitEncoder
  | E, [] => E
  | E, w :: rest =>
    if w &&& 0x100 = 0 then runPacked (E.bit (w >>> 9) (decide (w &&& 1 = 1))) rest
    else runPacked (E.byte (w >>> 9) (w &&& 0xFF)) rest

/-- Unpacking a bit message: for contexts within the `0x007FFFFF` bound
asserted by `BufferedEncoder`, packing is lossless. -/
theorem packBit_unpack {c : Nat} (hc : c ≤ 0x7FFFFF) (b : Bool) :
    packBit c b &&& 0x100 = 0 ∧ packBit c b >>> 9 = c ∧
    (decide (packBit c b &&& 1 = 1)) = b := by
  have hv : packBit c b = c * 512 + bitVal b := by
    unfold packBit
    rw [Nat.shiftLeft_eq]
    norm_num
    exact u32_eq_of_lt (by unfold bitVal; split_ifs <;> omega)
  have hb2 : bitVal b < 2 := by unfold bitVal; split_ifs <;> omega
  have h256 : (packBit c b &&& 0x100) = ((packBit c b >>> 8) &&& 1) <<< 8 := by
    rw [show (0x100 : Nat) = 1 <<< 8 from rfl]
    exact and_shifted_mask _ 1 8
  refine ⟨?_, ?_, ?_⟩
  · rw [h256, hv]
    have hdiv : (c * 512 + bitVal b) >>> 8 = c * 2 := by
      rw [Nat.shiftRight_eq_div_pow]
      omega
    rw [hdiv, Nat.and_pow_two_sub_one_eq_mod (c * 2) 1]
    norm_num
  · rw [hv, Nat.shiftRight_eq_div_pow]
    omega
  · rw [hv, Nat.and_pow_two_sub_one_eq_mod _ 1]
    norm_num
    cases b with
    | false =>
      simp only [bitVal]
      norm_num
      omega
    | true =>
      simp only [bitVal]
      norm_num
      omega

/-- Unpacking a byte message. -/
theorem packByte_unpack {c v : Nat} (hc : c ≤ 0x7FFFFF) (hv : v < 256) :
    ¬(packByte c v &&& 0x100 = 0) ∧ packByte c v >>> 9 = c ∧
    packByte c v &&& 0xFF = v := by
  have hval : packByte c v = c * 512 + v + 256 := by
    unfold packByte
    rw [Nat.shiftLeft_eq]
    norm_num
    exact u32_eq_of_lt (by omega)
  have h256 : (packByte c v &&& 0x100) = ((packByte c v >>> 8) &&& 1) <<< 8 := by
    rw [show (0x100 : Nat) = 1 <<< 8 from rfl]
    exact and_shifted_mask _ 1 8
  refine ⟨?_, ?_, ?_⟩
  · rw [h256, hval]
    have hdiv : (c * 512 + v + 256) >>> 8 = c * 2 + 1 := by
      rw [Nat.shiftRight_eq_div_pow]
      omega
    rw [hdiv, Nat.and_pow_two_sub_one_eq_mod (c * 2 + 1) 1]
    intro hcontra
    rw [Nat.shiftLeft_eq] at hcontra
    norm_num at hcontra
    omega
  · rw [hval, Nat.shiftRight_eq_div_pow]
    omega
  · rw [hval, and_mask_eq_mod]
    omega

/-! ### Stream encoder and decoder -/

/-- The packed message sequence produced by `StreamEncoder::encode`
(`src/main.rs` lines 694-752): per input byte the match decision bits, at
end of input the terminator — the NONE prefix `1, 0` followed by the
literal equal to the current slot's first byte. -/
def encodeWords : MatchingContexts → List Nat → List Nat
  | s, [] =>
    match calculateContext s with
    | (firstByte, _, _, firstContext, secondContext, _, literalContext) =>
      [packBit firstContext true, packBit secondContext false,
       packByte literalContext firstByte]
  | s, b :: rest =>
    match calculateContext s with
    | (_, _, _, firstContext, secondContext, thirdContext, literalContext) =>
      let r := MatchingContexts.matching s b
      (match r.1 with
       | ByteMatched.FIRST => [packBit firstContext false]
       | ByteMatched.SECOND =>
          [packBit firstContext true, packBit secondContext true,
           packBit thirdContext false]
       | ByteMatched.THIRD =>
          [packBit firstContext true, packBit secondContext true,
           packBit thirdContext true]
       | ByteMatched.NONE =>
          [packBit firstContext true, packBit secondContext false,
           packByte literalContext b]) ++ encodeWords r.2 rest

/-- The compressed payload of a byte sequence: run the packed messages
through the threaded `BitEncoder` and flush. -/
def streamEncode (input : List Nat) : List Nat :=
  (runPacked BitEncoder.new (encodeWords MatchingContexts.new input)).enc.close

/-- One structural iteration of `StreamDecoder::decode` (`src/main.rs`
lines 774-809), with fuel: decode the decision bits, emit the matched
byte or the literal, stop when the literal equals the slot's first byte. -/
def streamDecodeLoop : Nat → MatchingContexts → BitDecoder → List Nat → Option (List Nat)
  | 0, _, _, _ => none
  | fuel + 1, s, D, acc =>
    match calculateContext s with
    | (firstByte, secondByte, thirdByte, firstContext, secondContext, thirdContext,
       literalContext) =>
      let r1 := D.bit firstContext
      if r1.1 = false then
        streamDecodeLoop fuel (s.matched firstByte ByteMatched.FIRST) r1.2
          (acc ++ [firstByte])
      else
        let r2 := r1.2.bit secondContext
        if r2.1 = false then
          let rb := r2.2.byte literalContext
          if rb.1 = firstByte then some acc
          else
            streamDecodeLoop fuel (s.matched rb.1 ByteMatched.NONE) rb.2 (acc ++ [rb.1])
        else
          let r3 := r2.2.bit thirdContext
          if r3.1 = false then
            streamDecodeLoop fuel (s.matched secondByte ByteMatched.SECOND) r3.2
              (acc ++ [secondByte])
          else
            streamDecodeLoop fuel (s.matched thirdByte ByteMatched.THIRD) r3.2
              (acc ++ [thirdByte])

/-- The decompressed payload (with an iteration budget; `none` only when
the budget runs out). -/
def streamDecode (fuel : Nat) (input : List Nat) : Option (List Nat) :=
  streamDecodeLoop fuel MatchingContexts.new (BitDecoder.new input) []

/-! ### Relating the packed run to the flattened script -/

/-- The flattened (context, bit) trace encoded by a packed word list. -/
def wordsToScript : List Nat → List (Nat × Bool)
  | [] => []
  | w :: rest =>
    (if w &&& 0x100 = 0 then [(w >>> 9, decide (w &&& 1 = 1))]
     else byteScript (w >>> 9) (w &&& 0xFF)) ++ wordsToScript rest

theorem wordsToScript_append (xs ys : List Nat) :
    wordsToScript (xs ++ ys) = wordsToScript xs ++ wordsToScript ys := by
  induction xs with
  | nil => rfl
  | cons w rest ih =>
    show (if w &&& 0x100 = 0 then _ else _) ++ wordsToScript (rest ++ ys) = _
    rw [ih, ← List.append_assoc]
    rfl

theorem wordsToScript_packBit {c : Nat} (hc : c ≤ 0x7FFFFF) (b : Bool) (rest : List Nat) :
    wordsToScript (packBit c b :: rest) = (c, b) :: wordsToScript rest := by
  obtain ⟨h1, h2, h3⟩ := packBit_unpack hc b
  show (if packBit c b &&& 0x100 = 0 then _ else _) ++ wordsToScript rest = _
  rw [if_pos h1, h2, h3]
  rfl

theorem wordsToScript_packByte {c v : Nat} (hc : c ≤ 0x7FFFFF) (hv : v < 256)
    (rest : List Nat) :
    wordsToScript (packByte c v :: rest) = byteScript c v ++ wordsToScript rest := by
  obtain ⟨h1, h2, h3⟩ := packByte_unpack hc hv
  show (if packByte c v &&& 0x100 = 0 then _ else _) ++ wordsToScript rest = _
  rw [if_neg h1, h2, h3]

/-- The threaded dispatch of packed words is the run of the flattened
script. -/
theorem runPacked_eq_runScript : ∀ (ws : List Nat) (E : BitEncoder),
    runPacked E ws = E.runScript (wordsToScript ws) := by
  intro ws
  induction ws with
  | nil => intro E; rfl
  | cons w rest ih =>
    intro E
    show (if w &&& 0x100 = 0 then _ else _) = _
    by_cases h : w &&& 0x100 = 0
    · rw [if_pos h]
      show runPacked (E.bit (w >>> 9) (decide (w &&& 1 = 1))) rest = _
      rw [ih]
      have : wordsToScript (w :: rest) =
          (w >>> 9, decide (w &&& 1 = 1)) :: wordsToScript rest := by
        show (if w &&& 0x100 = 0 then _ else _) ++ wordsToScript rest = _
        rw [if_pos h]
        rfl
      rw [this]
      rfl
    · rw [if_neg h]
      show runPacked (E.byte (w >>> 9) (w &&& 0xFF)) rest = _
      rw [ih]
      have : wordsToScript (w :: rest) =
          byteScript (w >>> 9) (w &&& 0xFF) ++ wordsToScript rest := by
        show (if w &&& 0x100 = 0 then _ else _) ++ wordsToScript rest = _
        rw [if_neg h]
      rw [this, BitEncoder.runScript_append, BitEncoder.byte_eq_runScript]

/-! ### Destructured unfolding equations for the stream loops -/

theorem encodeWords_nil_eq {s : MatchingContexts} {fb sb tb c1 c2 c3 cl : Nat}
    (hcc : calculateContext s = (fb, sb, tb, c1, c2, c3, cl)) :
    encodeWords s [] = [packBit c1 true, packBit c2 false, packByte cl fb] := by
  conv_lhs => rw [encodeWords]
  rw [hcc]

theorem encodeWords_cons_first {s : MatchingContexts} {fb sb tb c1 c2 c3 cl : Nat}
    (hcc : calculateContext s = (fb, sb, tb, c1, c2, c3, cl)) {b : Nat}
    (hm : (MatchingContexts.matching s b).1 = ByteMatched.FIRST) (rest : List Nat) :
    encodeWords s (b :: rest) =
    packBit c1 false :: encodeWords (MatchingContexts.matching s b).2 rest := by
  conv_lhs => rw [encodeWords]
  rw [hcc]
  simp only []
  rw [hm]
  simp only []
  rfl

theorem encodeWords_cons_second {s : MatchingContexts} {fb sb tb c1 c2 c3 cl : Nat}
    (hcc : calculateContext s = (fb, sb, tb, c1, c2, c3, cl)) {b : Nat}
    (hm : (MatchingContexts.matching s b).1 = ByteMatched.SECOND) (rest : List Nat) :
    encodeWords s (b :: rest) =
    packBit c1 true :: packBit c2 true :: packBit c3 false ::
      encodeWords (MatchingContexts.matching s b).2 rest := by
  conv_lhs => rw [encodeWords]
  rw [hcc]
  simp only []
  rw [hm]
  simp only []
  rfl

theorem encodeWords_cons_third {s : MatchingContexts} {fb sb tb c1 c2 c3 cl : Nat}
    (hcc : calculateContext s = (fb, sb, tb, c1, c2, c3, cl)) {b : Nat}
    (hm : (MatchingContexts.matching s b).1 = ByteMatched.THIRD) (rest : List Nat) :
    encodeWords s (b :: rest) =
    packBit c1 true :: packBit c2 true :: packBit c3 true ::
      encodeWords (MatchingContexts.matching s b).2 rest := by
  conv_lhs => rw [encodeWords]
  rw [hcc]
  simp only []
  rw [hm]
  simp only []
  rfl

theorem encodeWords_cons_none {s : MatchingContexts} {fb sb tb c1 c2 c3 cl : Nat}
    (hcc : calculateContext s = (fb, sb, tb, c1, c2, c3, cl)) {b : Nat}
    (hm : (MatchingContexts.matching s b).1 = ByteMatched.NONE) (rest : List Nat) :
    encodeWords s (b :: rest) =
    packBit c1 true :: packBit c2 false :: packByte cl b ::
      encodeWords (MatchingContexts.matching s b).2 rest := by
  conv_lhs => rw [encodeWords]
  rw [hcc]
  simp only []
  rw [hm]
  simp only []
  rfl

theorem streamDecodeLoop_succ_eq {s : MatchingContexts} {fb sb tb c1 c2 c3 cl : Nat}
    (hcc : calculateContext s = (fb, sb, tb, c1, c2, c3, cl)) (fuel : Nat)
    (D : BitDecoder) (acc : List Nat) :
    streamDecodeLoop (fuel + 1) s D acc =
    (if (D.bit c1).1 = false then
      streamDecodeLoop fuel (s.matched fb ByteMatched.FIRST) (D.bit c1).2 (acc ++ [fb])
    else
      if ((D.bit c1).2.bit c2).1 = false then
        if (((D.bit c1).2.bit c2).2.byte cl).1 = fb then some acc
        else
          streamDecodeLoop fuel
            (s.matched (((D.bit c1).2.bit c2).2.byte cl).1 ByteMatched.NONE)
            (((D.bit c1).2.bit c2).2.byte cl).2
            (acc ++ [(((D.bit c1).2.bit c2).2.byte cl).1])
      else
        if (((D.bit c1).2.bit c2).2.bit c3).1 = false then
          streamDecodeLoop fuel (s.matched sb ByteMatched.SECOND)
            (((D.bit c1).2.bit c2).2.bit c3).2 (acc ++ [sb])
        else
          streamDecodeLoop fuel (s.matched tb ByteMatched.THIRD)
            (((D.bit c1).2.bit c2).2.bit c3).2 (acc ++ [tb])) := by
  show (match calculateContext s with
    | (firstByte, secondByte, thirdByte, firstContext, secondContext, thirdContext,
       literalContext) =>
      let r1 := D.bit firstContext
      if r1.1 = false then
        streamDecodeLoop fuel (s.matched firstByte ByteMatched.FIRST) r1.2
          (acc ++ [firstByte])
      else
        let r2 := r1.2.bit secondContext
        if r2.1 = false then
          let rb := r2.2.byte literalContext
          if rb.1 = firstByte then some acc
          else
            streamDecodeLoop fuel (s.matched rb.1 ByteMatched.NONE) rb.2 (acc ++ [rb.1])
        else
          let r3 := r2.2.bit thirdContext
          if r3.1 = false then
            streamDecodeLoop fuel (s.matched secondByte ByteMatched.SECOND) r3.2
              (acc ++ [secondByte])
          else
            streamDecodeLoop fuel (s.matched thirdByte ByteMatched.THIRD) r3.2
              (acc ++ [thirdByte])) = _
  rw [hcc]

/-- Destructured form of the context bounds. -/
theorem calculateContext_bounds_eq {s : MatchingContexts} (hs : ContextsOk s)
    {fb sb tb c1 c2 c3 cl : Nat}
    (hcc : calculateContext s = (fb, sb, tb, c1, c2, c3, cl)) :
    fb < 256 ∧ sb < 256 ∧ tb < 256 ∧ c1 < SECONDARY_CONTEXT_SIZE ∧
    c2 < SECONDARY_CONTEXT_SIZE ∧ c3 < SECONDARY_CONTEXT_SIZE ∧
    cl + 255 < SECONDARY_CONTEXT_SIZE := by
  have h := calculateContext_bounds hs
  rw [hcc] at h
  exact h

/-- The slot bytes named by `calculate_context`. -/
theorem calculateContext_bytes {s : MatchingContexts}
    {fb sb tb c1 c2 c3 cl : Nat}
    (hcc : calculateContext s = (fb, sb, tb, c1, c2, c3, cl)) :
    fb = s.contexts s.hashValue % 256 ∧
    sb = (s.contexts s.hashValue >>> 8) % 256 ∧
    tb = (s.contexts s.hashValue >>> 16) % 256 := by
  have h1 : (calculateContext s).1 = s.contexts s.hashValue % 256 := rfl
  have h2 : (calculateContext s).2.1 = (s.contexts s.hashValue >>> 8) % 256 := rfl
  have h3 : (calculateContext s).2.2.1 = (s.contexts s.hashValue >>> 16) % 256 := rfl
  rw [hcc] at h1 h2 h3
  exact ⟨h1.symm.symm, h2.symm.symm, h3.symm.symm⟩

/-- The decode loop, aligned with the encoder's packed message stream,
reproduces the encoder's input byte for byte and stops exactly at the
terminator. -/
theorem stream_sim : ∀ (input : List Nat), bytesOk input →
    ∀ (s : MatchingContexts), ContextsOk s →
    ∀ (D : BitDecoder) (plow phigh : Nat) (tbl : Nat → Nat) (acc : List Nat),
    DecAligned D plow phigh tbl (wordsToScript (encodeWords s input)) →
    streamDecodeLoop (input.length + 1) s D acc = some (acc ++ input) := by
  intro input
  induction input with
  | nil =>
    intro _ s hs D plow phigh tbl acc hA
    rcases hcc : calculateContext s with ⟨fb, sb, tb, c1, c2, c3, cl⟩
    obtain ⟨hfb, hsb, htb, hc1, hc2, hc3, hcl⟩ := calculateContext_bounds_eq hs hcc
    have hscript : wordsToScript (encodeWords s []) =
        (c1, true) :: (c2, false) :: (byteScript cl fb ++ []) := by
      rw [encodeWords_nil_eq hcc,
        wordsToScript_packBit (by unfold SECONDARY_CONTEXT_SIZE at hc1; omega) true,
        wordsToScript_packBit (by unfold SECONDARY_CONTEXT_SIZE at hc2; omega) false,
        wordsToScript_packByte (by unfold SECONDARY_CONTEXT_SIZE at hcl; omega) hfb]
      rfl
    rw [hscript] at hA
    obtain ⟨e1, p1, q1, t1, hA1⟩ := dec_step_sim_ex hA
    obtain ⟨e2, p2, q2, t2, hA2⟩ := dec_step_sim_ex hA1
    obtain ⟨e3, _⟩ := dec_byte_sim hfb hA2
    rw [show ([] : List Nat).length + 1 = 0 + 1 from rfl,
      streamDecodeLoop_succ_eq hcc, e1, if_neg (by decide), e2, if_pos rfl, e3,
      if_pos rfl, List.append_nil]
  | cons b rest ih =>
    intro hin s hs D plow phigh tbl acc hA
    have hb : b < 256 := hin b (List.mem_cons_self b rest)
    have hrest : bytesOk rest := fun x hx => hin x (List.mem_cons_of_mem b hx)
    rcases hcc : calculateContext s with ⟨fb, sb, tb, c1, c2, c3, cl⟩
    obtain ⟨hfb, hsb, htb, hc1, hc2, hc3, hcl⟩ := calculateContext_bounds_eq hs hcc
    obtain ⟨hfbv, hsbv, htbv⟩ := calculateContext_bytes hcc
    have hs2 : ContextsOk (MatchingContexts.matching s b).2 := contextsOk_matching hs hb
    have hmm : (MatchingContexts.matching s b).1 =
        (MatchingContext.matching (s.contexts s.hashValue) b).1 := rfl
    have hbc1 : c1 ≤ 0x7FFFFF := by unfold SECONDARY_CONTEXT_SIZE at hc1; omega
    have hbc2 : c2 ≤ 0x7FFFFF := by unfold SECONDARY_CONTEXT_SIZE at hc2; omega
    have hbc3 : c3 ≤ 0x7FFFFF := by unfold SECONDARY_CONTEXT_SIZE at hc3; omega
    have hbcl : cl ≤ 0x7FFFFF := by unfold SECONDARY_CONTEXT_SIZE at hcl; omega
    have hlen : (b :: rest).length + 1 = (rest.length + 1) + 1 := by
      rw [List.length_cons]
    rcases hmcase : (MatchingContexts.matching s b).1 with _ | _ | _ | _
    · -- FIRST
      have hbfb : b = fb := by
        rw [hfbv]
        exact matching_first_eq hb (hmm ▸ hmcase)
      have hscript : wordsToScript (encodeWords s (b :: rest)) =
          (c1, false) :: wordsToScript (encodeWords (MatchingContexts.matching s b).2 rest) := by
        rw [encodeWords_cons_first hcc hmcase rest, wordsToScript_packBit hbc1]
      rw [hscript] at hA
      obtain ⟨e1, p1, q1, t1, hA1⟩ := dec_step_sim_ex hA
      have hstates : MatchingContexts.matched s fb ByteMatched.FIRST =
          (MatchingContexts.matching s b).2 := by
        have h0 := MatchingContexts.roll_matched_matching s b
        rw [hmcase] at h0
        rw [← hbfb]
        exact h0
      rw [hlen, streamDecodeLoop_succ_eq hcc, e1, if_pos rfl, hstates,
        ih hrest _ hs2 _ p1 q1 t1 (acc ++ [fb]) hA1, ← hbfb, List.append_assoc,
        List.singleton_append]
    · -- SECOND
      have hbsb : b = sb := by
        rw [hsbv]
        exact matching_second_eq hb (hmm ▸ hmcase)
      have hscript : wordsToScript (encodeWords s (b :: rest)) =
          (c1, true) :: (c2, true) :: (c3, false) ::
          wordsToScript (encodeWords (MatchingContexts.matching s b).2 rest) := by
        rw [encodeWords_cons_second hcc hmcase rest, wordsToScript_packBit hbc1,
          wordsToScript_packBit hbc2, wordsToScript_packBit hbc3]
      rw [hscript] at hA
      obtain ⟨e1, p1, q1, t1, hA1⟩ := dec_step_sim_ex hA
      obtain ⟨e2, p2, q2, t2, hA2⟩ := dec_step_sim_ex hA1
      obtain ⟨e3, p3, q3, t3, hA3⟩ := dec_step_sim_ex hA2
      have hstates : MatchingContexts.matched s sb ByteMatched.SECOND =
          (MatchingContexts.matching s b).2 := by
        have h0 := MatchingContexts.roll_matched_matching s b
        rw [hmcase] at h0
        rw [← hbsb]
        exact h0
      rw [hlen, streamDecodeLoop_succ_eq hcc, e1, if_neg (by decide), e2,
        if_neg (by decide), e3, if_pos rfl, hstates,
        ih hrest _ hs2 _ p3 q3 t3 (acc ++ [sb]) hA3, ← hbsb, List.append_assoc,
        List.singleton_append]
    · -- THIRD
      have hbtb : b = tb := by
        rw [htbv]
        exact matching_third_eq hb (hmm ▸ hmcase)
      have hscript : wordsToScript (encodeWords s (b :: rest)) =
          (c1, true) :: (c2, true) :: (c3, true) ::
          wordsToScript (encodeWords (MatchingContexts.matching s b).2 rest) := by
        rw [encodeWords_cons_third hcc hmcase rest, wordsToScript_packBit hbc1,
          wordsToScript_packBit hbc2, wordsToScript_packBit hbc3]
      rw [hscript] at hA
      obtain ⟨e1, p1, q1, t1, hA1⟩ := dec_step_sim_ex hA
      obtain ⟨e2, p2, q2, t2, hA2⟩ := dec_step_sim_ex hA1
      obtain ⟨e3, p3, q3, t3, hA3⟩ := dec_step_sim_ex hA2
      have hstates : MatchingContexts.matched s tb ByteMatched.THIRD =
          (MatchingContexts.matching s b).2 := by
        have h0 := MatchingContexts.roll_matched_matching s b
        rw [hmcase] at h0
        rw [← hbtb]
        exact h0
      rw [hlen, streamDecodeLoop_succ_eq hcc, e1, if_neg (by decide), e2,
        if_neg (by decide), e3, if_neg (by decide), hstates,
        ih hrest _ hs2 _ p3 q3 t3 (acc ++ [tb]) hA3, ← hbtb, List.append_assoc,
        List.singleton_append]
    · -- NONE (a literal that, by construction, differs from the first byte)
      have hbne : b ≠ fb := by
        rw [hfbv]
        exact matching_none_ne_first hb (hmm ▸ hmcase)
      have hscript : wordsToScript (encodeWords s (b :: rest)) =
          (c1, true) :: (c2, false) ::
          (byteScript cl b ++
            wordsToScript (encodeWords (MatchingContexts.matching s b).2 rest)) := by
        rw [encodeWords_cons_none hcc hmcase rest, wordsToScript_packBit hbc1,
          wordsToScript_packBit hbc2, wordsToScript_packByte hbcl hb]
      rw [hscript] at hA
      obtain ⟨e1, p1, q1, t1, hA1⟩ := dec_step_sim_ex hA
      obtain ⟨e2, p2, q2, t2, hA2⟩ := dec_step_sim_ex hA1
      obtain ⟨e3, p3, q3, t3, hA3⟩ := dec_byte_sim hb hA2
      have hstates : MatchingContexts.matched s b ByteMatched.NONE =
          (MatchingContexts.matching s b).2 := by
        have h0 := MatchingContexts.roll_matched_matching s b
        rw [hmcase] at h0
        exact h0
      rw [hlen, streamDecodeLoop_succ_eq hcc, e1, if_neg (by decide), e2,
        if_pos rfl, e3, if_neg hbne, hstates,
        ih hrest _ hs2 _ p3 q3 t3 (acc ++ [b]) hA3, List.append_assoc,
        List.singleton_append]

/-- Round trip at the payload level: decoding the encoded stream of any
byte sequence recovers the sequence exactly. -/
theorem stream_roundtrip (input : List Nat) (hin : bytesOk input) :
    streamDecode (input.length + 1) (streamEncode input) = some input := by
  unfold streamDecode streamEncode
  have hS : (runPacked BitEncoder.new (encodeWords MatchingContexts.new input)).enc.close =
      encTailBytes 0 4294967295 tableNew
        (wordsToScript (encodeWords MatchingContexts.new input)) := by
    rw [runPacked_eq_runScript, runScript_close]
    rfl
  rw [hS]
  have hinit : DecAligned
      (BitDecoder.new (encTailBytes 0 4294967295 tableNew
        (wordsToScript (encodeWords MatchingContexts.new input))))
      0 0 tableNew (wordsToScript (encodeWords MatchingContexts.new input)) := by
    refine ⟨Nat.le_refl 0, by norm_num, rfl, ?_⟩
    have h00 : renormLH 4 0 0 = (0, 4294967295, [0, 0, 0, 0]) := by decide
    rw [h00]
    show RawDecoder.new _ = _
    unfold RawDecoder.new
    have hw : windowL ([0, 0, 0, 0] ++ encTailBytes 0 4294967295 tableNew
        (wordsToScript (encodeWords MatchingContexts.new input))) = 0 := by
      show (0 : Nat) * 16777216 + 0 * 65536 + 0 * 256 + 0 = 0
      omega
    rw [hw]
    rfl
  have := stream_sim input hin MatchingContexts.new contextsOk_new
    (BitDecoder.new (encTailBytes 0 4294967295 tableNew
      (wordsToScript (encodeWords MatchingContexts.new input))))
    0 0 tableNew [] hinit
  rw [this]
  rfl

/-! ### Container framing -/

/-- The 4-byte magic `s R x 0x00` (`src/main.rs` line 818). -/
def SRX_HEADER : List Nat := [0x73, 0x52, 0x78, 0x00]

/-- The compression side of `run` (`src/main.rs` lines 833-835): write the
magic, then the encoded payload. -/
def runCompress (input : List Nat) : List Nat := SRX_HEADER ++ streamEncode input

/-- The decompression side of `run` (`src/main.rs` lines 836-842):
`read_exact` four bytes (an IO error if the input is shorter), compare
with the magic (`CorruptHeader` on mismatch), then decode the rest. -/
def runDecompress (fuel : Nat) (input : List Nat) : Except String (Option (List Nat)) :=
  if input.length < 4 then Except.error "failed to fill whole buffer"
  else if input.take 4 ≠ SRX_HEADER then Except.error "Not a SRX compressed file!"
  else Except.ok (streamDecode fuel (input.drop 4))

/-- Container-level round trip. -/
theorem container_roundtrip (input : List Nat) (hin : bytesOk input) :
    runDecompress (input.length + 1) (runCompress input) = Except.ok (some input) := by
  unfold runDecompress runCompress
  rw [if_neg (by simp [SRX_HEADER]), if_neg (by simp [SRX_HEADER]),
    show (SRX_HEADER ++ streamEncode input).drop 4 = streamEncode input from rfl,
    stream_roundtrip input hin]

/-! ### Predictor consumption order, end-of-input reads, context bounds -/

/-- The sequence of predictions the encoder's bit loop feeds the range
coder along a script: each step reads the slot via `update` (which
returns the pre-update prediction) and writes the successor state for
the coded bit. -/
def encPredSeq : (Nat → Nat) → List (Nat × Bool) → List Nat
  | _, [] => []
  | tbl, s :: rest =>
    (BitPrediction.update (tbl s.1) s.2).1 ::
      encPredSeq (Function.update tbl s.1 (BitPrediction.update (tbl s.1) s.2).2) rest

/-- The sequence of predictions the decoder's bit loop feeds the range
coder along the same script: each step reads the slot via `get` before
writing the successor state for the decoded bit. -/
def decPredSeq : (Nat → Nat) → List (Nat × Bool) → List Nat
  | _, [] => []
  | tbl, s :: rest =>
    BitPrediction.get (tbl s.1) ::
      decPredSeq (Function.update tbl s.1 (BitPrediction.update (tbl s.1) s.2).2) rest

/-- A decoder whose input is exhausted stays exhausted through
renormalization: every read substitutes `0xFF` and leaves the empty
input in place. -/
theorem renorm_input_nil : ∀ (fuel : Nat) (d : RawDecoder), d.input = [] →
    (RawDecoder.renorm fuel d).input = [] := by
  intro fuel
  induction fuel with
  | zero => intro d h; exact h
  | succ n ih =>
    intro d h
    obtain ⟨v, l, g, inp⟩ := d
    simp only at h
    subst h
    rw [renorm_succ_unfold]
    by_cases hc : topMatch l g
    · rw [if_pos hc]
      exact ih _ rfl
    · rw [if_neg hc]

/-- The container output always starts with the magic bytes. -/
theorem runCompress_take_header (input : List Nat) :
    (runCompress input).take 4 = SRX_HEADER := rfl

/-- The compressed payload is never empty (the flush byte is always
written). -/
theorem streamEncode_length (input : List Nat) : 1 ≤ (streamEncode input).length := by
  unfold streamEncode RawEncoder.close
  rw [List.length_append]
  simp

/-- Nibble-tree values: both `(v >> 4) | 16` and `(v & 15) | 16` lie in
`[16, 31]` for bytes. -/
theorem nibble_bounds : ∀ v : Nat, v < 256 →
    16 ≤ (v >>> 4) ||| 16 ∧ (v >>> 4) ||| 16 ≤ 31 ∧
    16 ≤ (v &&& 15) ||| 16 ∧ (v &&& 15) ||| 16 ≤ 31 := by
  decide

/-- Every context index coded by `BitEncoder::byte` lies within 255 of
the byte's base context. -/
theorem byteScript_ctx_le {c v : Nat} (hv : v < 256) :
    ∀ pr ∈ byteScript c v, c ≤ pr.1 ∧ pr.1 ≤ c + 255 := by
  obtain ⟨n1, n2, n3, n4⟩ := nibble_bounds v hv
  have s1 : ((v >>> 4) ||| 16) >>> 3 ≤ 3 := by
    rw [Nat.shiftRight_eq_div_pow]; omega
  have s2 : ((v >>> 4) ||| 16) >>> 2 ≤ 7 := by
    rw [Nat.shiftRight_eq_div_pow]; omega
  have s3 : ((v >>> 4) ||| 16) >>> 1 ≤ 15 := by
    rw [Nat.shiftRight_eq_div_pow]; omega
  have t1 : ((v &&& 15) ||| 16) >>> 3 ≤ 3 := by
    rw [Nat.shiftRight_eq_div_pow]; omega
  have t2 : ((v &&& 15) ||| 16) >>> 2 ≤ 7 := by
    rw [Nat.shiftRight_eq_div_pow]; omega
  have t3 : ((v &&& 15) ||| 16) >>> 1 ≤ 15 := by
    rw [Nat.shiftRight_eq_div_pow]; omega
  intro pr hpr
  simp only [byteScript, List.mem_cons, List.not_mem_nil, or_false] at hpr
  rcases hpr with h | h | h | h | h | h | h | h <;> subst h <;>
    simp only <;> omega

/-- Every (context, bit) pair the packed message stream of the encoder
puts in front of the secondary model stays below the secondary table
size. -/
theorem encodeWords_ctx_lt :
    ∀ (input : List Nat) (s : MatchingContexts), bytesOk input → ContextsOk s →
    ∀ pr ∈ wordsToScript (encodeWords s input), pr.1 < SECONDARY_CONTEXT_SIZE := by
  intro input
  induction input with
  | nil =>
    intro s _ hs pr hpr
    rcases hcc : calculateContext s with ⟨fb, sb, tb, c1, c2, c3, cl⟩
    obtain ⟨hfb, _, _, hc1, hc2, _, hcl⟩ := calculateContext_bounds_eq hs hcc
    rw [encodeWords_nil_eq hcc] at hpr
    have e1 : c1 ≤ 0x7FFFFF := by unfold SECONDARY_CONTEXT_SIZE at hc1; omega
    have e2 : c2 ≤ 0x7FFFFF := by unfold SECONDARY_CONTEXT_SIZE at hc2; omega
    have e3 : cl ≤ 0x7FFFFF := by unfold SECONDARY_CONTEXT_SIZE at hcl; omega
    rw [wordsToScript_packBit e1, wordsToScript_packBit e2,
      wordsToScript_packByte e3 hfb, wordsToScript] at hpr
    simp only [List.mem_cons, List.not_mem_nil, or_false, List.append_nil] at hpr
    rcases hpr with h | h | h
    · rw [h]; exact hc1
    · rw [h]; exact hc2
    · obtain ⟨_, hle⟩ := byteScript_ctx_le hfb pr h
      omega
  | cons b rest ih =>
    intro s hin hs pr hpr
    have hb : b < 256 := hin b (List.mem_cons_self b rest)
    have hrest : bytesOk rest := fun x hx => hin x (List.mem_cons_of_mem b hx)
    rcases hcc : calculateContext s with ⟨fb, sb, tb, c1, c2, c3, cl⟩
    obtain ⟨hfb, _, _, hc1, hc2, hc3, hcl⟩ := calculateContext_bounds_eq hs hcc
    have e1 : c1 ≤ 0x7FFFFF := by unfold SECONDARY_CONTEXT_SIZE at hc1; omega
    have e2 : c2 ≤ 0x7FFFFF := by unfold SECONDARY_CONTEXT_SIZE at hc2; omega
    have e3 : c3 ≤ 0x7FFFFF := by unfold SECONDARY_CONTEXT_SIZE at hc3; omega
    have e4 : cl ≤ 0x7FFFFF := by unfold SECONDARY_CONTEXT_SIZE at hcl; omega
    have hnext := ih (MatchingContexts.matching s b).2 hrest (contextsOk_matching hs hb)
    cases hm : (MatchingContexts.matching s b).1 with
    | FIRST =>
      rw [encodeWords_cons_first hcc hm, wordsToScript_packBit e1] at hpr
      simp only [List.mem_cons] at hpr
      rcases hpr with h | h
      · rw [h]; exact hc1
      · exact hnext pr h
    | SECOND =>
      rw [encodeWords_cons_second hcc hm, wordsToScript_packBit e1,
        wordsToScript_packBit e2, wordsToScript_packBit e3] at hpr
      simp only [List.mem_cons] at hpr
      rcases hpr with h | h | h | h
      · rw [h]; exact hc1
      · rw [h]; exact hc2
      · rw [h]; exact hc3
      · exact hnext pr h
    | THIRD =>
      rw [encodeWords_cons_third hcc hm, wordsToScript_packBit e1,
        wordsToScript_packBit e2, wordsToScript_packBit e3] at hpr
      simp only [List.mem_cons] at hpr
      rcases hpr with h | h | h | h
      · rw [h]; exact hc1
      · rw [h]; exact hc2
      · rw [h]; exact hc3
      · exact hnext pr h
    | NONE =>
      rw [encodeWords_cons_none hcc hm, wordsToScript_packBit e1,
        wordsToScript_packBit e2, wordsToScript_packByte e4 hb] at hpr
      simp only [List.mem_cons, List.mem_append] at hpr
      rcases hpr with h | h | h | h
      · rw [h]; exact hc1
      · rw [h]; exact hc2
      · obtain ⟨_, hle⟩ := byteScript_ctx_le hb pr h
        omega
      · exact hnext pr h

/-- The loop body of `StreamEncoder::encode` without its epilogue: the
packed messages for the real input bytes, and the model state after the
last one (at which point the terminator of lines 714-721 is emitted). -/
def encodeBody : MatchingContexts → List Nat → List Nat × MatchingContexts
  | s, [] => ([], s)
  | s, b :: rest =>
    match calculateContext s with
    | (_, _, _, firstContext, secondContext, thirdContext, literalContext) =>
      let r := MatchingContexts.matching s b
      let k := encodeBody r.2 rest
      ((match r.1 with
        | ByteMatched.FIRST => [packBit firstContext false]
        | ByteMatched.SECOND =>
           [packBit firstContext true, packBit secondContext true,
            packBit thirdContext false]
        | ByteMatched.THIRD =>
           [packBit firstContext true, packBit secondContext true,
            packBit thirdContext true]
        | ByteMatched.NONE =>
           [packBit firstContext true, packBit secondContext false,
            packByte literalContext b]) ++ k.1, k.2)

theorem encodeBody_cons_first {s : MatchingContexts} {fb sb tb c1 c2 c3 cl : Nat}
    (hcc : calculateContext s = (fb, sb, tb, c1, c2, c3, cl)) {b : Nat}
    (hm : (MatchingContexts.matching s b).1 = ByteMatched.FIRST) (rest : List Nat) :
    encodeBody s (b :: rest) =
    (packBit c1 false :: (encodeBody (MatchingContexts.matching s b).2 rest).1,
     (encodeBody (MatchingContexts.matching s b).2 rest).2) := by
  conv_lhs => rw [encodeBody]
  rw [hcc]
  simp only []
  rw [hm]
  simp only []
  rfl

theorem encodeBody_cons_second {s : MatchingContexts} {fb sb tb c1 c2 c3 cl : Nat}
    (hcc : calculateContext s = (fb, sb, tb, c1, c2, c3, cl)) {b : Nat}
    (hm : (MatchingContexts.matching s b).1 = ByteMatched.SECOND) (rest : List Nat) :
    encodeBody s (b :: rest) =
    (packBit c1 true :: packBit c2 true :: packBit c3 false ::
       (encodeBody (MatchingContexts.matching s b).2 rest).1,
     (encodeBody (MatchingContexts.matching s b).2 rest).2) := by
  conv_lhs => rw [encodeBody]
  rw [hcc]
  simp only []
  rw [hm]
  simp only []
  rfl

theorem encodeBody_cons_third {s : MatchingContexts} {fb sb tb c1 c2 c3 cl : Nat}
    (hcc : calculateContext s = (fb, sb, tb, c1, c2, c3, cl)) {b : Nat}
    (hm : (MatchingContexts.matching s b).1 = ByteMatched.THIRD) (rest : List Nat) :
    encodeBody s (b :: rest) =
    (packBit c1 true :: packBit c2 true :: packBit c3 true ::
       (encodeBody (MatchingContexts.matching s b).2 rest).1,
     (encodeBody (MatchingContexts.matching s b).2 rest).2) := by
  conv_lhs => rw [encodeBody]
  rw [hcc]
  simp only []
  rw [hm]
  simp only []
  rfl

theorem encodeBody_cons_none {s : MatchingContexts} {fb sb tb c1 c2 c3 cl : Nat}
    (hcc : calculateContext s = (fb, sb, tb, c1, c2, c3, cl)) {b : Nat}
    (hm : (MatchingContexts.matching s b).1 = ByteMatched.NONE) (rest : List Nat) :
    encodeBody s (b :: rest) =
    (packBit c1 true :: packBit c2 false :: packByte cl b ::
       (encodeBody (MatchingContexts.matching s b).2 rest).1,
     (encodeBody (MatchingContexts.matching s b).2 rest).2) := by
  conv_lhs => rw [encodeBody]
  rw [hcc]
  simp only []
  rw [hm]
  simp only []
  rfl

/-- The decode loop only ever extends its accumulator: a successful
result is at least as long as the bytes already emitted. -/
theorem streamDecodeLoop_length : ∀ (fuel : Nat) (s : MatchingContexts)
    (D : BitDecoder) (acc out : List Nat),
    streamDecodeLoop fuel s D acc = some out → acc.length ≤ out.length := by
  intro fuel
  induction fuel with
  | zero =>
    intro s D acc out h
    exact absurd h (by simp [streamDecodeLoop])
  | succ n ih =>
    intro s D acc out h
    rcases hcc : calculateContext s with ⟨fb, sb, tb, c1, c2, c3, cl⟩
    rw [streamDecodeLoop_succ_eq hcc] at h
    split_ifs at h with g1 g2 g3 g4
    · have hl := ih _ _ _ _ h
      rw [List.length_append] at hl
      simp at hl
      omega
    · rw [Option.some.injEq] at h
      rw [h]
    · have hl := ih _ _ _ _ h
      rw [List.length_append] at hl
      simp at hl
      omega
    · have hl := ih _ _ _ _ h
      rw [List.length_append] at hl
      simp at hl
      omega
    · have hl := ih _ _ _ _ h
      rw [List.length_append] at hl
      simp at hl
      omega

/-! ### The specification's context formulas

These definitions transcribe the context formulas as the specification
words them, not the code, for comparison with `calculateContext`; the
third-decision formula uses the mathematical remainder of a possibly
negative integer, where the code keeps everything in unsigned
arithmetic. -/

/-- Spec formula: `bit_context = 0x400000 + (if match_count < 4 then
((previous_byte << 2) | match_count) else 1024 + (min(match_count - 4,
63) >> 1)) * 768`. -/
def spec_bitContext (previousByte matchCount : Nat) : Nat :=
  0x400000 +
    (if matchCount < 4 then ((previousByte <<< 2) ||| matchCount)
     else 1024 + (Nat.min (matchCount - 4) 63 >>> 1)) * 768

/-- Spec formula: first-decision context = `bit_context + first_byte`. -/
def spec_firstContext (bitContext firstByte : Nat) : Nat := bitContext + firstByte

/-- Spec formula: second-decision context =
`bit_context + 0x100 + ((second + third) mod 256)`. -/
def spec_secondContext (bitContext second third : Nat) : Nat :=
  bitContext + 0x100 + (second + third) % 256

/-- Spec formula: third-decision context =
`bit_context + 0x200 + ((2 * second - third) mod 256)`, the inner
subtraction read over the integers with a mathematical remainder. -/
def spec_thirdContext (bitContext second third : Nat) : Nat :=
  bitContext + 0x200 + ((2 * (second : Int) - (third : Int)) % 256).toNat

/-- Spec formula: literal context = `(hash_value & 0x3FFF) * 256`. -/
def spec_literalContext (hashValue : Nat) : Nat := (hashValue &&& 0x3FFF) * 256

/-! ## Claim theorems -/

/-- Claim C1: for every finite byte sequence, including the empty one,
decoding the compressed stream recovers the sequence exactly — at the
payload level (`StreamDecoder::decode` on the output of
`StreamEncoder::encode`) and at the container level (header written and
consumed). -/
theorem C1_round_trip (input : List Nat) (hin : bytesOk input) :
    streamDecode (input.length + 1) (streamEncode input) = some input ∧
    runDecompress (input.length + 1) (runCompress input) = Except.ok (some input) :=
  ⟨stream_roundtrip input hin, container_roundtrip input hin⟩

theorem C1_round_trip_witness :
    bytesOk [104, 105, 33] ∧
    (streamDecode 4 (streamEncode [104, 105, 33]) = some [104, 105, 33] ∧
     runDecompress 4 (runCompress [104, 105, 33]) = Except.ok (some [104, 105, 33])) :=
  ⟨show ∀ b ∈ [104, 105, 33], b < 256 by decide,
   C1_round_trip [104, 105, 33] (show ∀ b ∈ [104, 105, 33], b < 256 by decide)⟩

/-- Claim C2, counterexample: the decoder state after a coded bit does
not always satisfy `low < high`.  With the 32-bit prediction `0` the
split point is `middle = low`, the bit decodes as one and `high` becomes
`middle`: on input `[0, 0, 0, 0]` the very first decoded bit leaves the
decoder with `low = high = 0`. -/
theorem C2_counterexample :
    ((RawDecoder.new [0, 0, 0, 0]).bit 0).2.low =
      ((RawDecoder.new [0, 0, 0, 0]).bit 0).2.high ∧
    ¬ ((RawDecoder.new [0, 0, 0, 0]).bit 0).2.low <
      ((RawDecoder.new [0, 0, 0, 0]).bit 0).2.high := by
  decide

/-- Claim C2, amended: the encoder keeps `low < high` (and differing top
bytes, so every split has `low ≤ middle < high`) after every coded bit;
the decoder keeps `low ≤ high` after every coded bit — the range can
close transiently — and the renormalization at the head of each bit step
restores `low < high`, so every split the decoder actually computes also
has `low ≤ middle < high`. -/
theorem C2_range_invariant :
    (∀ steps : List (Nat × Bool), stepsOk steps →
      (RawEncoder.new.run steps).low < (RawEncoder.new.run steps).high ∧
      topMatch (RawEncoder.new.run steps).low (RawEncoder.new.run steps).high = false ∧
      ∀ p : Nat, p < 4294967296 →
        (RawEncoder.new.run steps).low ≤
          coderMiddle (RawEncoder.new.run steps).low (RawEncoder.new.run steps).high p ∧
        coderMiddle (RawEncoder.new.run steps).low (RawEncoder.new.run steps).high p <
          (RawEncoder.new.run steps).high) ∧
    (∀ (input preds : List Nat), predsOk preds →
      ((RawDecoder.new input).run preds).2.low ≤
        ((RawDecoder.new input).run preds).2.high ∧
      (RawDecoder.renorm 4 ((RawDecoder.new input).run preds).2).low <
        (RawDecoder.renorm 4 ((RawDecoder.new input).run preds).2).high ∧
      ∀ p : Nat, p < 4294967296 →
        (RawDecoder.renorm 4 ((RawDecoder.new input).run preds).2).low ≤
          coderMiddle (RawDecoder.renorm 4 ((RawDecoder.new input).run preds).2).low
            (RawDecoder.renorm 4 ((RawDecoder.new input).run preds).2).high p ∧
        coderMiddle (RawDecoder.renorm 4 ((RawDecoder.new input).run preds).2).low
            (RawDecoder.renorm 4 ((RawDecoder.new input).run preds).2).high p <
          (RawDecoder.renorm 4 ((RawDecoder.new input).run preds).2).high) := by
  constructor
  · intro steps hsteps
    obtain ⟨h1, h2, h3, _⟩ := encInv_run encInv_new hsteps
    exact ⟨h1, h3, fun p hp => coderMiddle_bounds h1 h2 hp⟩
  · intro input preds hpreds
    have hd := decInv_run (decInv_new input) hpreds
    obtain ⟨r1, r2, _⟩ := decInv_renorm hd
    exact ⟨hd.1, r1, fun p hp => coderMiddle_bounds r1 r2 hp⟩

/-- Claim C4: whenever the primary model classifies an input byte as
NONE (the miss case, which makes the stream emit a literal), the byte
differs from the slot first byte read at the moment of classification —
at the slot level for every slot value, and at the model level where the
slot first byte is the one `calculate_context` returns. -/
theorem C4_none_differs :
    (∀ c b : Nat, b < 256 →
      (MatchingContext.matching c b).1 = ByteMatched.NONE →
      b ≠ (MatchingContext.get c).1) ∧
    (∀ (s : MatchingContexts) (b : Nat), b < 256 →
      (MatchingContexts.matching s b).1 = ByteMatched.NONE →
      b ≠ (calculateContext s).1) :=
  ⟨fun _ b hb hm => matching_none_ne_first hb hm,
   fun _ b hb hm => matching_none_ne_first hb hm⟩

/-- Claim C6, counterexample: the secondary table size written in
`src/bridged_context.rs` line 25 — `0x4000 * 256 + (1024 + 32) * 768` —
is not 5,001,216. -/
theorem C6_counterexample : SECONDARY_CONTEXT_SIZE_BRIDGED ≠ 5001216 := by
  decide

/-- Claim C6, amended: the secondary context table size is the expression
`0x4000 * 256 + (1024 + 32) * 768`, the constant of `src/main.rs` line
624 spells the same number as `(1024 + 32) * 768 + 0x400000`, and both
equal 5,005,312 (not 5,001,216). -/
theorem C6_table_size :
    SECONDARY_CONTEXT_SIZE_BRIDGED = 0x4000 * 256 + (1024 + 32) * 768 ∧
    SECONDARY_CONTEXT_SIZE = SECONDARY_CONTEXT_SIZE_BRIDGED ∧
    SECONDARY_CONTEXT_SIZE = 5005312 := by
  refine ⟨rfl, by decide, by decide⟩

/-- Claim C8: both sides of a coded bit follow the read-then-write
contract: `update` returns the slot's prediction as it was before the
write; the encoder feeds exactly that pre-update prediction to the range
coder while writing the successor state for the coded bit; the decoder
reads the same prediction via `get` before writing the successor state
for the decoded bit; hence over any common script the two sides consume
identical prediction sequences. -/
theorem C8_read_then_write :
    (∀ (s : Nat) (b : Bool), (BitPrediction.update s b).1 = BitPrediction.get s) ∧
    (∀ (E : BitEncoder) (c : Nat) (b : Bool),
      (E.bit c b).enc = E.enc.bit (BitPrediction.get (E.states c)) b ∧
      (E.bit c b).states =
        Function.update E.states c (BitPrediction.update (E.states c) b).2) ∧
    (∀ (D : BitDecoder) (c : Nat),
      (D.bit c).1 = (D.dec.bit (BitPrediction.get (D.states c))).1 ∧
      ((D.bit c).2).states =
        Function.update D.states c
          (BitPrediction.update (D.states c) (D.bit c).1).2) ∧
    (∀ (tbl : Nat → Nat) (sc : List (Nat × Bool)),
      encPredSeq tbl sc = decPredSeq tbl sc) := by
  refine ⟨fun s b => BitPrediction.update_fst s b,
    fun E c b => ⟨rfl, rfl⟩, fun D c => ⟨rfl, rfl⟩, fun tbl sc => ?_⟩
  induction sc generalizing tbl with
  | nil => rfl
  | cons s rest ih =>
    show (BitPrediction.update (tbl s.1) s.2).1 :: _ = BitPrediction.get (tbl s.1) :: _
    rw [BitPrediction.update_fst]
    exact congrArg _ (ih _)

/-- Claim C9: a read at end of input during the decoder's
renormalization substitutes the byte `0xFF` and leaves the reader at end
of input, so decoding continues — neither the renormalization loop nor a
bit step ever signals an error — and a truncated container that keeps
the 4 header bytes still decodes to an `Except.ok` result, never to an
end-of-input error. -/
theorem C9_eof_substitution :
    decReadByte [] = (255, []) ∧
    (∀ (fuel : Nat) (d : RawDecoder), d.input = [] →
      (RawDecoder.renorm fuel d).input = []) ∧
    (∀ (d : RawDecoder) (p : Nat), d.input = [] → ((d.bit p).2).input = []) ∧
    (∀ (input : List Nat) (k fuel : Nat), 4 ≤ k →
      ∃ r, runDecompress fuel ((runCompress input).take k) = Except.ok r) := by
  refine ⟨rfl, renorm_input_nil, fun d p h => ?_, fun input k fuel hk => ?_⟩
  · rw [RawDecoder.bit_eq]
    exact renorm_input_nil 4 d h
  · have hlen : 4 ≤ (runCompress input).length := by
      unfold runCompress
      rw [List.length_append]
      have h4 : SRX_HEADER.length = 4 := rfl
      omega
    have hlen2 : ((runCompress input).take k).length = min k (runCompress input).length :=
      List.length_take k (runCompress input)
    have htake : ((runCompress input).take k).take 4 = SRX_HEADER := by
      rw [List.take_take, show min 4 k = 4 from by omega, runCompress_take_header]
    refine ⟨streamDecode fuel (((runCompress input).take k).drop 4), ?_⟩
    unfold runDecompress
    rw [if_neg (by omega), if_neg (by rw [htake]; exact fun hne => hne rfl)]

/-- Claim C10: the secondary table size is
`0x400000 + (1024 + 32) * 768 = 5,005,312`; every decision-bit context
`calculate_context` produces is at most 5,005,311 and every
literal-coding context (literal base plus any nibble-tree offset, the
largest being 255) is at most `0x3FFF * 256 + 255 = 4,194,303`; and
along any encoded stream every context index actually put in front of
the secondary model stays strictly below the table size. -/
theorem C10_contexts_in_bounds :
    (SECONDARY_CONTEXT_SIZE = 0x400000 + (1024 + 32) * 768 ∧
     SECONDARY_CONTEXT_SIZE = 5005312) ∧
    (∀ s : MatchingContexts, ContextsOk s →
      (calculateContext s).2.2.2.1 ≤ 5005311 ∧
      (calculateContext s).2.2.2.2.1 ≤ 5005311 ∧
      (calculateContext s).2.2.2.2.2.1 ≤ 5005311 ∧
      (calculateContext s).2.2.2.2.2.2 + 255 ≤ 4194303) ∧
    (∀ (input : List Nat) (s : MatchingContexts), bytesOk input → ContextsOk s →
      ∀ pr ∈ wordsToScript (encodeWords s input), pr.1 < SECONDARY_CONTEXT_SIZE) := by
  refine ⟨⟨by decide, by decide⟩, fun s hs => ?_, encodeWords_ctx_lt⟩
  obtain ⟨_, _, _, h1, h2, h3, _⟩ := calculateContext_bounds hs
  unfold SECONDARY_CONTEXT_SIZE at h1 h2 h3
  have hcl : (calculateContext s).2.2.2.2.2.2 = (s.hashValue &&& 0x3FFF) * 256 := rfl
  have hclv : (s.hashValue &&& 0x3FFF) * 256 ≤ 4194048 := by
    rw [show (0x3FFF : Nat) = 16383 from rfl, and_mask14_eq_mod]
    have : s.hashValue % 16384 ≤ 16383 := by omega
    omega
  exact ⟨by omega, by omega, by omega, by rw [hcl]; omega⟩

/-- Claim C5: every compressed container starts with the magic
`0x73 0x52 0x78 0x00`; decompressing any input of at least 4 bytes whose
first 4 bytes are not the magic fails with the corrupt-header error; and
on such inputs the outcome is a function of the first 4 bytes alone —
nothing past byte 4 is read. -/
theorem C5_header :
    (∀ input : List Nat, (runCompress input).take 4 = SRX_HEADER) ∧
    (∀ (input : List Nat) (fuel : Nat), 4 ≤ input.length →
      input.take 4 ≠ SRX_HEADER →
      runDecompress fuel input = Except.error "Not a SRX compressed file!") ∧
    (∀ (i1 i2 : List Nat) (fuel : Nat), 4 ≤ i1.length → 4 ≤ i2.length →
      i1.take 4 = i2.take 4 → i1.take 4 ≠ SRX_HEADER →
      runDecompress fuel i1 = runDecompress fuel i2) := by
  refine ⟨runCompress_take_header, fun input fuel hlen hne => ?_,
    fun i1 i2 fuel h1 h2 heq hne => ?_⟩
  · unfold runDecompress
    rw [if_neg (by omega), if_pos hne]
  · unfold runDecompress
    rw [if_neg (by omega), if_pos hne, if_neg (by omega),
      if_pos (show i2.take 4 ≠ SRX_HEADER from heq ▸ hne)]

/-- Claim C3: the stream terminator is emitted exactly once, after the
messages for all real input bytes — the NONE prefix (bit one then bit
zero) followed by the literal equal to the first byte of the slot
current at that moment; and one iteration of the decode loop returns
(terminates) exactly when its first decision bit is one, its second is
zero, and the decoded literal equals the current slot's first byte — any
other literal is treated as a real NONE byte and decoding continues. -/
theorem C3_terminator :
    (∀ (input : List Nat) (s : MatchingContexts) (fb sb tb c1 c2 c3 cl : Nat),
      calculateContext (encodeBody s input).2 = (fb, sb, tb, c1, c2, c3, cl) →
      encodeWords s input =
        (encodeBody s input).1 ++
          [packBit c1 true, packBit c2 false, packByte cl fb]) ∧
    (∀ (fuel : Nat) (s : MatchingContexts) (D : BitDecoder) (acc : List Nat)
      (fb sb tb c1 c2 c3 cl : Nat),
      calculateContext s = (fb, sb, tb, c1, c2, c3, cl) →
      (streamDecodeLoop (fuel + 1) s D acc = some acc ↔
        (D.bit c1).1 = true ∧ ((D.bit c1).2.bit c2).1 = false ∧
        (((D.bit c1).2.bit c2).2.byte cl).1 = fb)) := by
  constructor
  · intro input
    induction input with
    | nil =>
      intro s fb sb tb c1 c2 c3 cl hcc
      have hcc2 : calculateContext s = (fb, sb, tb, c1, c2, c3, cl) := hcc
      rw [encodeWords_nil_eq hcc2]
      rfl
    | cons b rest ih =>
      intro s fb sb tb c1 c2 c3 cl hcc
      rcases hcc0 : calculateContext s with ⟨fb0, sb0, tb0, d1, d2, d3, dl⟩
      cases hm : (MatchingContexts.matching s b).1 with
      | FIRST =>
        rw [encodeBody_cons_first hcc0 hm] at hcc ⊢
        rw [encodeWords_cons_first hcc0 hm]
        simp only [List.cons_append]
        exact congrArg _ (ih _ fb sb tb c1 c2 c3 cl hcc)
      | SECOND =>
        rw [encodeBody_cons_second hcc0 hm] at hcc ⊢
        rw [encodeWords_cons_second hcc0 hm]
        simp only [List.cons_append]
        exact congrArg _ (congrArg _ (congrArg _ (ih _ fb sb tb c1 c2 c3 cl hcc)))
      | THIRD =>
        rw [encodeBody_cons_third hcc0 hm] at hcc ⊢
        rw [encodeWords_cons_third hcc0 hm]
        simp only [List.cons_append]
        exact congrArg _ (congrArg _ (congrArg _ (ih _ fb sb tb c1 c2 c3 cl hcc)))
      | NONE =>
        rw [encodeBody_cons_none hcc0 hm] at hcc ⊢
        rw [encodeWords_cons_none hcc0 hm]
        simp only [List.cons_append]
        exact congrArg _ (congrArg _ (congrArg _ (ih _ fb sb tb c1 c2 c3 cl hcc)))
  · intro fuel s D acc fb sb tb c1 c2 c3 cl hcc
    rw [streamDecodeLoop_succ_eq hcc]
    constructor
    · intro h
      by_cases g1 : (D.bit c1).1 = false
      · rw [if_pos g1] at h
        have hl := streamDecodeLoop_length _ _ _ _ _ h
        rw [List.length_append] at hl
        simp at hl
      · rw [if_neg g1] at h
        have hb1 : (D.bit c1).1 = true := by
          cases hb : (D.bit c1).1 with
          | false => exact absurd hb g1
          | true => rfl
        by_cases g2 : ((D.bit c1).2.bit c2).1 = false
        · rw [if_pos g2] at h
          by_cases g3 : (((D.bit c1).2.bit c2).2.byte cl).1 = fb
          · exact ⟨hb1, g2, g3⟩
          · rw [if_neg g3] at h
            have hl := streamDecodeLoop_length _ _ _ _ _ h
            rw [List.length_append] at hl
            simp at hl
        · rw [if_neg g2] at h
          split_ifs at h
          · have hl := streamDecodeLoop_length _ _ _ _ _ h
            rw [List.length_append] at hl
            simp at hl
          · have hl := streamDecodeLoop_length _ _ _ _ _ h
            rw [List.length_append] at hl
            simp at hl
    · rintro ⟨hb1, hb2, hb3⟩
      rw [if_neg (by rw [hb1]; exact fun hc => Bool.noConfusion hc),
        if_pos hb2, if_pos hb3]

/-- Claim C7: the four secondary context indices `calculate_context`
produces are exactly the specified formulas, applied to the current
slot's match count, the previous byte, the slot's ranked bytes and the
rolling hash — including the third-decision formula, whose signed
`(2 * second - third) mod 256` agrees with the code's unsigned
`(second * 2 % 256 + 256 - third) % 256`. -/
theorem C7_context_formulas (s : MatchingContexts) (fb sb tb c1 c2 c3 cl : Nat)
    (hcc : calculateContext s = (fb, sb, tb, c1, c2, c3, cl)) :
    c1 = spec_firstContext
        (spec_bitContext s.lastByte (s.contexts s.hashValue >>> 24)) fb ∧
    c2 = spec_secondContext
        (spec_bitContext s.lastByte (s.contexts s.hashValue >>> 24)) sb tb ∧
    c3 = spec_thirdContext
        (spec_bitContext s.lastByte (s.contexts s.hashValue >>> 24)) sb tb ∧
    cl = spec_literalContext s.hashValue := by
  have hb : spec_bitContext s.lastByte (s.contexts s.hashValue >>> 24) =
      (if s.contexts s.hashValue >>> 24 < 4
        then ((s.lastByte <<< 2) ||| (s.contexts s.hashValue >>> 24))
        else 1024 + (Nat.min (s.contexts s.hashValue >>> 24 - 4) 63 >>> 1)) * 768
        + 0x400000 :=
    Nat.add_comm _ _
  have e1 : (calculateContext s).2.2.2.1 =
      (if s.contexts s.hashValue >>> 24 < 4
        then ((s.lastByte <<< 2) ||| (s.contexts s.hashValue >>> 24))
        else 1024 + (Nat.min (s.contexts s.hashValue >>> 24 - 4) 63 >>> 1)) * 768
        + 0x400000 + s.contexts s.hashValue % 256 := rfl
  have e2 : (calculateContext s).2.2.2.2.1 =
      (if s.contexts s.hashValue >>> 24 < 4
        then ((s.lastByte <<< 2) ||| (s.contexts s.hashValue >>> 24))
        else 1024 + (Nat.min (s.contexts s.hashValue >>> 24 - 4) 63 >>> 1)) * 768
        + 0x400000 + 256 +
        ((s.contexts s.hashValue >>> 8) % 256 + (s.contexts s.hashValue >>> 16) % 256) %
          256 := rfl
  have e3 : (calculateContext s).2.2.2.2.2.1 =
      (if s.contexts s.hashValue >>> 24 < 4
        then ((s.lastByte <<< 2) ||| (s.contexts s.hashValue >>> 24))
        else 1024 + (Nat.min (s.contexts s.hashValue >>> 24 - 4) 63 >>> 1)) * 768
        + 0x400000 + 512 +
        ((s.contexts s.hashValue >>> 8) % 256 * 2 % 256 + 256 -
          (s.contexts s.hashValue >>> 16) % 256) % 256 := rfl
  have e4 : (calculateContext s).2.2.2.2.2.2 = (s.hashValue &&& 0x3FFF) * 256 := rfl
  have f1 : c1 = (calculateContext s).2.2.2.1 := by rw [hcc]
  have f2 : c2 = (calculateContext s).2.2.2.2.1 := by rw [hcc]
  have f3 : c3 = (calculateContext s).2.2.2.2.2.1 := by rw [hcc]
  have f4 : cl = (calculateContext s).2.2.2.2.2.2 := by rw [hcc]
  obtain ⟨hfb, hsb, htb⟩ := calculateContext_bytes hcc
  refine ⟨?_, ?_, ?_, ?_⟩
  · rw [f1, e1]
    unfold spec_firstContext
    rw [hb, hfb]
  · rw [f2, e2]
    unfold spec_secondContext
    rw [hb, hsb, htb]
  · rw [f3, e3]
    unfold spec_thirdContext
    rw [hb, hsb, htb]
    have hs2 : (s.contexts s.hashValue >>> 8) % 256 < 256 :=
      Nat.mod_lt _ (by norm_num)
    have ht2 : (s.contexts s.hashValue >>> 16) % 256 < 256 :=
      Nat.mod_lt _ (by norm_num)
    omega
  · rw [f4, e4]
    rfl

theorem C7_context_formulas_witness :
    4194304 = spec_firstContext
        (spec_bitContext MatchingContexts.new.lastByte
          (MatchingContexts.new.contexts MatchingContexts.new.hashValue >>> 24)) 0 ∧
    4194560 = spec_secondContext
        (spec_bitContext MatchingContexts.new.lastByte
          (MatchingContexts.new.contexts MatchingContexts.new.hashValue >>> 24)) 0 0 ∧
    4194816 = spec_thirdContext
        (spec_bitContext MatchingContexts.new.lastByte
          (MatchingContexts.new.contexts MatchingContexts.new.hashValue >>> 24)) 0 0 ∧
    0 = spec_literalContext MatchingContexts.new.hashValue :=
  C7_context_formulas MatchingContexts.new 0 0 0 4194304 4194560 4194816 0 (by decide)

end Srx
